import Mathlib

/-!
# Verification of the TensorFlow graph-hierarchy engine
  (tensorboard/plugins/graph/tf_graph_common/hierarchy.ts)

This file gives a shallow embedding, in Lean 4, of the hierarchy
construction and query functions of `hierarchy.ts`, and proves (or
refutes) the specified properties of those functions.

JavaScript plain objects used as dictionaries are insertion-ordered
maps from string keys to values; we embed them as association lists
`List (String × α)` with
  * `lookupA`  — property read (`obj[k]`, `undefined` ↦ `none`),
  * `updateA`  — property write (`obj[k] = v`: overwrites in place,
                 appends a new key at the end),
  * `eraseA`   — `delete obj[k]`,
  * `pushAssoc` — the `(obj[k] = obj[k] || []).push(x)` idiom.

Numbers that are used as non-negative counters/indices are embedded as
`Nat`; the one signed configuration value (`seriesNodeMinSize`) is an
`Int`.  Thrown exceptions are embedded with `Except String`.
-/

namespace TfHierarchy

/-- Read a key of a JS-object-as-dictionary (missing key ↦ `none`). -/
def lookupA {α : Type} : List (String × α) → String → Option α
  | [], _ => none
  | (k', v) :: t, k => if k' = k then some v else lookupA t k

/-- Write a key of a JS-object-as-dictionary: an existing key keeps its
position and gets the new value, a new key is appended at the end. -/
def updateA {α : Type} : List (String × α) → String → α → List (String × α)
  | [], k, v => [(k, v)]
  | (k', v') :: t, k, v =>
    if k' = k then (k', v) :: t else (k', v') :: updateA t k v

/-- `delete obj[k]`: remove the (first) entry with the given key. -/
def eraseA {α : Type} : List (String × α) → String → List (String × α)
  | [], _ => []
  | (k', v) :: t, k => if k' = k then t else (k', v) :: eraseA t k

/-- The `(obj[k] = obj[k] || []).push(x)` idiom: append `x` to the list
stored at `k`, creating the entry at the end if missing. -/
def pushAssoc {α : Type} : List (String × List α) → String → α → List (String × List α)
  | [], k, x => [(k, [x])]
  | (k', l) :: t, k, x =>
    if k' = k then (k', l ++ [x]) :: t else (k', l) :: pushAssoc t k x

@[simp] theorem lookupA_nil {α : Type} (k : String) : lookupA ([] : List (String × α)) k = none := rfl

theorem lookupA_cons {α : Type} (k' k : String) (v : α) (t : List (String × α)) :
    lookupA ((k', v) :: t) k = if k' = k then some v else lookupA t k := rfl

@[simp] theorem lookupA_updateA_self {α : Type} (l : List (String × α)) (k : String) (v : α) :
    lookupA (updateA l k v) k = some v := by
  induction l with
  | nil => simp [updateA, lookupA]
  | cons p t ih =>
    obtain ⟨k', v'⟩ := p
    by_cases h : k' = k
    · simp [updateA, lookupA, h]
    · simp [updateA, lookupA, h, ih]

@[simp] theorem lookupA_updateA_other {α : Type} (l : List (String × α)) (k k' : String) (v : α)
    (h : k' ≠ k) : lookupA (updateA l k v) k' = lookupA l k' := by
  have hk : k ≠ k' := fun hh => h hh.symm
  induction l with
  | nil => simp [updateA, lookupA, hk]
  | cons p t ih =>
    obtain ⟨k₀, v₀⟩ := p
    by_cases h₀ : k₀ = k
    · subst h₀
      simp [updateA, lookupA, hk]
    · simp only [updateA, if_neg h₀, lookupA]
      by_cases h₁ : k₀ = k'
      · simp [h₁]
      · simp [h₁, ih]

end TfHierarchy

namespace TfHierarchy

/-! ## Edges and metaedges

`BaseEdge` (graph.ts) is a raw edge of the flat input graph.
`MetaE` embeds a `Metaedge` (graph.ts, `MetaedgeImpl`) as stored in a
metagraph: the ordered list of the `BaseEdge`s it aggregates; its
`numRegularEdges` statistic is, per the specification of the Metaedge
entity, the count of aggregated base edges that are not control
dependencies, and `addBaseEdge` appends to the base-edge list. -/

structure BaseEdge where
  v : String
  w : String
  isControlDependency : Bool := false
  isReferenceEdge : Bool := false
  outputTensorKey : String := "0"
deriving DecidableEq, Repr

structure MetaE where
  v : String
  w : String
  baseEdgeList : List BaseEdge := []
deriving DecidableEq, Repr

/-- Modelled from the spec: a Metaedge's derived `numRegularEdges` count
(the number of non-control base edges it aggregates). -/
def MetaE.numRegularEdges (m : MetaE) : Nat :=
  (m.baseEdgeList.filter (fun b => !b.isControlDependency)).length

/-! ## The Ordering Engine (`getTopologicalOrdering`, hierarchy.ts 326-376)

The successor lists and the destination set are built by one pass over
the metagraph's edges, skipping metaedges with no regular (non-control)
edges.  The queue is seeded with the keys of the successor map that
never occur as a destination, and a breadth-first loop assigns
increasing integers in dequeue order, deleting each dequeued node's
successor entry. -/

/-- One step of the edge scan of `getTopologicalOrdering` (lines
350-360): skip control-only metaedges, record `e.w` as a successor of
`e.v` and as a destination. -/
def buildSuccStep (acc : List (String × List String) × List String) (e : MetaE) :
    List (String × List String) × List String :=
  if e.numRegularEdges = 0 then acc
  else (pushAssoc acc.1 e.v e.w, if acc.2.contains e.w then acc.2 else acc.2 ++ [e.w])

/-- The successor map and destination set of `getTopologicalOrdering`. -/
def buildSuccessors (es : List MetaE) : List (String × List String) × List String :=
  es.foldl buildSuccStep ([], [])

/-- Total length of all successor lists (the loop's work measure). -/
def succSize (succ : List (String × List String)) : Nat :=
  (succ.map (fun p => p.2.length)).sum

/-- The breadth-first loop of `getTopologicalOrdering` (lines 369-374),
with explicit fuel: dequeue a child, record `ordering[childName] =
index++`, enqueue its successors and delete its successor entry
("Prevent cycles from infinite looping").  Returns `none` only when the
fuel runs out; `topo_loop_fuel_sufficient` shows the fuel bound
`queue.length + succSize succ` always suffices. -/
def topoLoopFuel : Nat → List (String × List String) → List String → Nat →
    List (String × Nat) → Option (List (String × Nat))
  | _, _, [], _, ord => some ord
  | 0, _, _ :: _, _, _ => none
  | f + 1, succ, c :: rest, idx, ord =>
    topoLoopFuel f (eraseA succ c) (rest ++ (lookupA succ c).getD [])
      (idx + 1) (updateA ord c idx)

/-- The fuel bound used to run the breadth-first loop to completion. -/
def topoBound (succ : List (String × List String)) (queue : List String) : Nat :=
  queue.length + succSize succ

/-- `getTopologicalOrdering`'s core on a metagraph's edge list: build
successor/destination maps, seed the queue with true sources, run the
breadth-first loop.  (The bound of `topo_loop_fuel_sufficient` makes the
`getD` default unreachable.) -/
def topoOrdering (es : List MetaE) : List (String × Nat) :=
  let sd := buildSuccessors es
  let queue := (sd.1.map Prod.fst).filter (fun k => !(sd.2.contains k))
  (topoLoopFuel (topoBound sd.1 queue) sd.1 queue 0 []).getD []

/-- Removing a key's entry removes exactly the length of the list that
`lookupA` finds there. -/
theorem succSize_eraseA (succ : List (String × List String)) (c : String) :
    ((lookupA succ c).getD []).length + succSize (eraseA succ c) = succSize succ := by
  induction succ with
  | nil => simp [lookupA, eraseA, succSize]
  | cons p t ih =>
    obtain ⟨k, l⟩ := p
    by_cases h : k = c
    · simp [lookupA, eraseA, h, succSize]
    · have h1 : eraseA ((k, l) :: t) c = (k, l) :: eraseA t c := by simp [eraseA, h]
      have h2 : lookupA ((k, l) :: t) c = lookupA t c := by simp [lookupA, h]
      have h3 : succSize ((k, l) :: eraseA t c) = l.length + succSize (eraseA t c) := by
        simp [succSize]
      have h4 : succSize ((k, l) :: t) = l.length + succSize t := by simp [succSize]
      rw [h1, h2, h3, h4]
      omega

/-- Each iteration of the breadth-first loop strictly decreases
`queue.length + succSize succ`, so that fuel always suffices. -/
theorem topo_loop_runs (f : Nat) :
    ∀ (succ : List (String × List String)) (queue : List String) (idx : Nat)
      (ord : List (String × Nat)), queue.length + succSize succ ≤ f →
      (topoLoopFuel f succ queue idx ord).isSome := by
  induction f with
  | zero =>
    intro succ queue idx ord hb
    match queue with
    | [] => simp [topoLoopFuel]
    | c :: rest => simp at hb
  | succ f ih =>
    intro succ queue idx ord hb
    match queue with
    | [] => simp [topoLoopFuel]
    | c :: rest =>
      simp only [topoLoopFuel]
      apply ih
      have h := succSize_eraseA succ c
      simp only [List.length_cons] at hb
      simp only [List.length_append]
      omega

end TfHierarchy

namespace TfHierarchy

/-! ### C7 — termination of the Ordering Engine, and its partiality -/

/-- C7 (amended): for every metagraph edge list — including ones whose
non-control edges form directed cycles — the breadth-first loop of
`getTopologicalOrdering` completes within `queue.length + succSize succ`
dequeue steps (the fuel `topoOrdering` runs it with), because each
dequeued child's successor entry is deleted; so the function terminates
and returns a finite assignment.  (The assignment is not total: see the
counterexample `topo_cycle_not_total`.) -/
theorem topoOrdering_terminates (es : List MetaE) :
    (topoLoopFuel
        (topoBound (buildSuccessors es).1
          (((buildSuccessors es).1.map Prod.fst).filter
            (fun k => !((buildSuccessors es).2.contains k))))
        (buildSuccessors es).1
        (((buildSuccessors es).1.map Prod.fst).filter
          (fun k => !((buildSuccessors es).2.contains k)))
        0 []).isSome := by
  apply topo_loop_runs
  simp [topoBound]

/-- A two-node metagraph whose only (non-control) edges form the cycle
`A -> B -> A`. -/
def cycleEdges : List MetaE :=
  [ { v := "A", w := "B", baseEdgeList := [{ v := "A", w := "B" }] },
    { v := "B", w := "A", baseEdgeList := [{ v := "B", w := "A" }] } ]

/-- C7 counterexample to totality, as stated: on a metagraph that is a
pure two-node cycle, `getTopologicalOrdering` terminates but assigns no
integer to either child — both `A` and `B` appear in the metagraph yet
the returned ordering has no entry for them, so the assignment is not
total over the container's children. -/
theorem topo_cycle_not_total :
    (cycleEdges.map (fun e => e.v) = ["A", "B"]) ∧
      lookupA (topoOrdering cycleEdges) "A" = none ∧
      lookupA (topoOrdering cycleEdges) "B" = none := by
  decide

/-! ### C1 — the documented ordering guarantee fails on a DAG

`hierarchy.ts` (doc comment, lines 315-318) and the spec both state:
if there is a (non-control) path from child `A` to child `B`, then
`order[A] < order[B]`.  The loop re-enqueues a node every time another
predecessor is dequeued and overwrites its index, but the node's
successor entry was deleted at its first dequeue, so its successors'
indices are never refreshed.  On the acyclic metagraph with edges
`S->A`, `S->B`, `B->A`, `A->C` the returned ordering is
`S:0, B:2, C:3, A:4`, violating `order[A] < order[C]` for the edge
`A -> C`. -/

/-- The failing acyclic metagraph for C1: regular (non-control) edges
`S->A`, `S->B`, `B->A`, `A->C`. -/
def c1Edges : List MetaE :=
  [ { v := "S", w := "A", baseEdgeList := [{ v := "S", w := "A" }] },
    { v := "S", w := "B", baseEdgeList := [{ v := "S", w := "B" }] },
    { v := "B", w := "A", baseEdgeList := [{ v := "B", w := "A" }] },
    { v := "A", w := "C", baseEdgeList := [{ v := "A", w := "C" }] } ]

/-- C1: evaluation of `getTopologicalOrdering`'s core on `c1Edges`.
The metagraph has the regular metaedge `A -> C` (a one-edge non-control
path from `A` to `C`), yet the computed ordering assigns `A ↦ 4` and
`C ↦ 3`, so `order[A] < order[C]` fails — the code contradicts its own
documented guarantee (and the claim). -/
theorem topo_ordering_violates_path_order :
    (∃ m ∈ c1Edges, m.v = "A" ∧ m.w = "C" ∧ m.numRegularEdges ≠ 0) ∧
      lookupA (topoOrdering c1Edges) "A" = some 4 ∧
      lookupA (topoOrdering c1Edges) "C" = some 3 := by
  refine ⟨⟨{ v := "A", w := "C", baseEdgeList := [{ v := "A", w := "C" }] }, by decide, by decide⟩, by decide, by decide⟩

end TfHierarchy

namespace TfHierarchy

/-! ## The Hierarchy object and its lazily-cached queries

`Hierarchy` (hierarchy.ts 61-414) keeps a global name → node index and a
per-container cache of topological orderings; each `GroupNode` caches
its bridgegraph on the node itself.  `HrNode` embeds the slice of a
node (OpNode / Metanode / SeriesNode) that the Bridge Router, the
Ordering Engine and the Edge Builder read or write:

  * `isGroup`      — `isGroupNode` / the `'metagraph' in node` check
                     (GroupNodes are exactly the nodes with a metagraph);
  * `parentName`   — the `parentNode` back-reference (by name);
  * `metagraph`    — the container's metagraph edge list (the edge
                     builder and the two queries only touch its edges);
  * `bridgegraph`  — the lazily-computed bridgegraph cache (`null` ↦
                     `none`);
  * `hasNonControlEdges` — flag set by the edge builder. -/

structure BridgeMetaedge where
  v : String
  w : String
  inbound : Bool
  baseEdgeList : List BaseEdge := []
deriving DecidableEq, Repr

structure HrNode where
  isGroup : Bool
  parentName : Option String := none
  metagraph : List MetaE := []
  bridgegraph : Option (List BridgeMetaedge) := none
  hasNonControlEdges : Bool := false
deriving DecidableEq, Repr

structure HierState where
  index : List (String × HrNode)
  orderings : List (String × List (String × Nat)) := []
deriving DecidableEq, Repr

/-- `getTopologicalOrdering` (hierarchy.ts 326-376): throw for an
unknown name, `null` for a non-group node, the memoized ordering if one
is cached, else compute the ordering from the metagraph and cache it. -/
def getTopologicalOrderingH (h : HierState) (nodeName : String) :
    Except String (Option (List (String × Nat)) × HierState) :=
  match lookupA h.index nodeName with
  | none => .error ("Could not find node with name: " ++ nodeName)
  | some node =>
    if node.isGroup = false then .ok (none, h)
    else
      match lookupA h.orderings nodeName with
      | some o => .ok (some o, h)
      | none =>
        let r := topoOrdering node.metagraph
        .ok (some r, { h with orderings := updateA h.orderings nodeName r })

/-- Store a (possibly partial) bridgegraph on the named node
(`groupNode.bridgegraph = ...`). -/
def setBridge (h : HierState) (name : String) (bg : List BridgeMetaedge) : HierState :=
  match lookupA h.index name with
  | none => h
  | some node => { h with index := updateA h.index name { node with bridgegraph := some bg } }

/-- `getChildName` (hierarchy.ts 204-216): walk up from the descendant
until a node whose parent is `nodeName` is found; otherwise throw.  The
fuel bounds the walk (the source's loop is bounded by the ancestor
chain; callers pass `h.index.length`, enough for any acyclic chain). -/
def getChildName (h : HierState) (nodeName : String) : Nat → String → Except String String
  | 0, descendantName =>
    .error ("Could not find immediate child for descendant: " ++ descendantName)
  | fuel + 1, current =>
    match lookupA h.index current with
    | none => .error ("Could not find immediate child for descendant: " ++ current)
    | some node =>
      match node.parentName with
      | some p => if p = nodeName then .ok current else getChildName h nodeName fuel p
      | none => .error ("Could not find immediate child for descendant: " ++ current)

/-- Look up or create (with the given `inbound` flag) the bridge
Metaedge between `v` and `w` and append the base edge to it
(hierarchy.ts 174-193).  The `inbound` flag is set only on creation. -/
def addBridgeBase (bg : List BridgeMetaedge) (v w : String) (inbound : Bool) (be : BaseEdge) :
    List BridgeMetaedge :=
  match bg with
  | [] => [{ v := v, w := w, inbound := inbound, baseEdgeList := [be] }]
  | m :: t =>
    if m.v = v ∧ m.w = w then { m with baseEdgeList := m.baseEdgeList ++ [be] } :: t
    else m :: addBridgeBase t v w inbound be

/-- Process one parent-level Metaedge touching `nodeName`
(hierarchy.ts 157-195): for each of its base edges, find the immediate
child of `nodeName` containing the descendant endpoint and fold the base
edge into the bridge Metaedge between that child and the other end. -/
def processParentEdge (h : HierState) (nodeName : String)
    (pv pw : String) (bel : List BaseEdge) (bg : List BridgeMetaedge) :
    Except String (List BridgeMetaedge) :=
  let inbound := pw = nodeName
  bel.foldlM
    (fun acc be => do
      let descendantName := if inbound then be.w else be.v
      let otherName := if inbound then pv else pw
      let childName ← getChildName h nodeName h.index.length descendantName
      let bv := if inbound then otherName else childName
      let bw := if inbound then childName else otherName
      pure (addBridgeBase acc bv bw inbound be))
    bg

/-- Process every edge of one parent graph (metagraph or bridgegraph)
that touches `nodeName`, given as `(v, w, baseEdgeList)` triples. -/
def processParentGraph (h : HierState) (nodeName : String)
    (edges : List (String × String × List BaseEdge)) (bg : List BridgeMetaedge) :
    Except String (List BridgeMetaedge) :=
  edges.foldlM
    (fun acc e =>
      if e.1 = nodeName ∨ e.2.1 = nodeName then
        processParentEdge h nodeName e.1 e.2.1 e.2.2 acc
      else pure acc)
    bg

/-- One level of `getBridgegraph` (hierarchy.ts 129-198), with the
recursive call on the parent abstracted as `recur`: throw for an
unknown name; `null` for a non-group node; the cached bridgegraph if
present.  Otherwise store an empty bridgegraph (line 141), return it if
the node has no group parent, and else obtain the parent's bridgegraph
via `recur` and fold every base edge of every parent metagraph /
bridgegraph edge touching this node into this node's bridgegraph. -/
def bridgeStep
    (recur : HierState → String → Except String (Option (List BridgeMetaedge) × HierState))
    (h : HierState) (nodeName : String) :
    Except String (Option (List BridgeMetaedge) × HierState) :=
  match lookupA h.index nodeName with
  | none => .error ("Could not find node in hierarchy: " ++ nodeName)
  | some node =>
    if node.isGroup = false then .ok (none, h)
    else
      match node.bridgegraph with
      | some bg => .ok (some bg, h)
      | none =>
        let h₁ := setBridge h nodeName []
        match node.parentName with
        | none => .ok (some [], h₁)
        | some pname =>
          match lookupA h₁.index pname with
          | none => .ok (some [], h₁)
          | some pnode =>
            if pnode.isGroup = false then .ok (some [], h₁)
            else do
              let (pbg, h₂) ← recur h₁ pname
              let bg₁ ← processParentGraph h₂ nodeName
                (pnode.metagraph.map (fun m => (m.v, m.w, m.baseEdgeList))) []
              let bg₂ ← processParentGraph h₂ nodeName
                ((pbg.getD []).map (fun m => (m.v, m.w, m.baseEdgeList))) bg₁
              pure (some bg₂, setBridge h₂ nodeName bg₂)

/-- `getBridgegraph`, with fuel bounding the recursion along the parent
chain (the source's recursion is bounded by the — finite, in any
well-formed hierarchy — ancestor chain of the node). -/
def getBridgegraphF : Nat → HierState → String →
    Except String (Option (List BridgeMetaedge) × HierState)
  | 0 => bridgeStep (fun _ _ => .error "Maximum bridgegraph recursion depth exceeded")
  | f + 1 => bridgeStep (getBridgegraphF f)

/-! ### C9 — `getBridgegraph` on non-group and missing names -/

/-- C9: for every name present in the hierarchy's index that maps to a
non-group node, `getBridgegraph` returns `null` (it neither throws nor
returns a graph) and leaves the hierarchy unchanged; for a name absent
from the index it throws. -/
theorem getBridgegraph_nongroup_and_missing (h : HierState) (name : String) :
    (∀ node, lookupA h.index name = some node → node.isGroup = false →
      ∀ fuel, getBridgegraphF fuel h name = .ok (none, h)) ∧
    (lookupA h.index name = none →
      ∀ fuel, getBridgegraphF fuel h name =
        .error ("Could not find node in hierarchy: " ++ name)) := by
  have hstep : ∀ recur,
      (∀ node, lookupA h.index name = some node → node.isGroup = false →
        bridgeStep recur h name = .ok (none, h)) ∧
      (lookupA h.index name = none →
        bridgeStep recur h name = .error ("Could not find node in hierarchy: " ++ name)) := by
    intro recur
    constructor
    · intro node hl hg
      simp only [bridgeStep, hl, hg, if_true]
    · intro hl
      simp only [bridgeStep, hl]
  constructor
  · intro node hl hg fuel
    cases fuel with
    | zero => exact (hstep _).1 node hl hg
    | succ f => exact (hstep _).1 node hl hg
  · intro hl fuel
    cases fuel with
    | zero => exact (hstep _).2 hl
    | succ f => exact (hstep _).2 hl

/-- A concrete hierarchy: a root container holding one op node. -/
def c9State : HierState :=
  { index := [("root", { isGroup := true }),
              ("root/op", { isGroup := false, parentName := some "root" })] }

/-- Witness for C9 at a concrete hierarchy: the op node's name resolves
to `null` without error, and an absent name throws. -/
theorem getBridgegraph_nongroup_and_missing_witness :
    getBridgegraphF 3 c9State "root/op" = .ok (none, c9State) ∧
      getBridgegraphF 3 c9State "ghost" =
        .error ("Could not find node in hierarchy: " ++ "ghost") :=
  ⟨(getBridgegraph_nongroup_and_missing c9State "root/op").1
      { isGroup := false, parentName := some "root" } (by decide) (by decide) 3,
   (getBridgegraph_nongroup_and_missing c9State "ghost").2 (by decide) 3⟩

/-! ### C8 — memoization of the Bridge Router and the Ordering Engine -/

/-- The fields of a node that the Bridge Router never modifies (it only
writes the `bridgegraph` cache). -/
def nodeShape (n : HrNode) : Bool × Option String × List MetaE × Bool :=
  (n.isGroup, n.parentName, n.metagraph, n.hasNonControlEdges)

theorem setBridge_orderings (h : HierState) (name : String) (bg : List BridgeMetaedge) :
    (setBridge h name bg).orderings = h.orderings := by
  unfold setBridge
  cases lookupA h.index name <;> rfl

theorem setBridge_shape (h : HierState) (name : String) (bg : List BridgeMetaedge)
    (m : String) :
    (lookupA (setBridge h name bg).index m).map nodeShape =
      (lookupA h.index m).map nodeShape := by
  unfold setBridge
  cases hl : lookupA h.index name with
  | none => rfl
  | some node =>
    by_cases hm : m = name
    · subst hm
      simp [lookupA_updateA_self, hl, nodeShape]
    · simp [lookupA_updateA_other _ _ _ _ hm]

/-- One `bridgeStep` only writes `bridgegraph` caches, provided the
recursive continuation does: every node keeps its `nodeShape`, and the
orderings cache is untouched. -/
theorem bridgeStep_shape
    (recur : HierState → String → Except String (Option (List BridgeMetaedge) × HierState))
    (hrec : ∀ h n r h', recur h n = .ok (r, h') →
      (∀ m, (lookupA h'.index m).map nodeShape = (lookupA h.index m).map nodeShape) ∧
        h'.orderings = h.orderings) :
    ∀ h n r h', bridgeStep recur h n = .ok (r, h') →
      (∀ m, (lookupA h'.index m).map nodeShape = (lookupA h.index m).map nodeShape) ∧
        h'.orderings = h.orderings := by
  intro h n r h' heq
  simp only [bridgeStep] at heq
  split at heq
  · exact absurd heq (by simp)
  · split at heq
    · cases heq
      exact ⟨fun m => rfl, rfl⟩
    · split at heq
      · cases heq
        exact ⟨fun m => rfl, rfl⟩
      · split at heq
        · cases heq
          exact ⟨setBridge_shape h n [], setBridge_orderings h n []⟩
        · split at heq
          · cases heq
            exact ⟨setBridge_shape h n [], setBridge_orderings h n []⟩
          · split at heq
            · cases heq
              exact ⟨setBridge_shape h n [], setBridge_orderings h n []⟩
            · rename_i x3 node hnode hgrp x2 hbg x1 pname hpar x0 pnode hplook hpgrp
              cases hcall : recur (setBridge h n []) pname with
              | error e =>
                rw [hcall] at heq
                exact absurd heq (by simp [Bind.bind, Except.bind])
              | ok p =>
                obtain ⟨pbg, h₂⟩ := p
                rw [hcall] at heq
                simp only [Bind.bind, Except.bind] at heq
                cases hb1 : processParentGraph h₂ n
                    (pnode.metagraph.map (fun m => (m.v, m.w, m.baseEdgeList))) [] with
                | error e => rw [hb1] at heq; exact absurd heq (by simp)
                | ok bg₁ =>
                  rw [hb1] at heq
                  simp only [] at heq
                  cases hb2 : processParentGraph h₂ n
                      ((pbg.getD []).map (fun m => (m.v, m.w, m.baseEdgeList))) bg₁ with
                  | error e => rw [hb2] at heq; exact absurd heq (by simp)
                  | ok bg₂ =>
                    rw [hb2] at heq
                    simp only [pure, Except.pure, Except.ok.injEq, Prod.mk.injEq] at heq
                    obtain ⟨hr, hh⟩ := heq
                    subst hh
                    have hcallS := hrec (setBridge h n []) pname pbg h₂ hcall
                    refine ⟨fun m => ?_, ?_⟩
                    · calc (lookupA (setBridge h₂ n bg₂).index m).map nodeShape
                          = (lookupA h₂.index m).map nodeShape := setBridge_shape h₂ n bg₂ m
                        _ = (lookupA (setBridge h n []).index m).map nodeShape := hcallS.1 m
                        _ = (lookupA h.index m).map nodeShape := setBridge_shape h n [] m
                    · calc (setBridge h₂ n bg₂).orderings
                          = h₂.orderings := setBridge_orderings h₂ n bg₂
                        _ = (setBridge h n []).orderings := hcallS.2
                        _ = h.orderings := setBridge_orderings h n []

/-- The Bridge Router only writes `bridgegraph` caches. -/
theorem getBridgegraphF_shape :
    ∀ (fuel : Nat) (h : HierState) (n : String) (r : Option (List BridgeMetaedge))
      (h' : HierState), getBridgegraphF fuel h n = .ok (r, h') →
      (∀ m, (lookupA h'.index m).map nodeShape = (lookupA h.index m).map nodeShape) ∧
        h'.orderings = h.orderings := by
  intro fuel
  induction fuel with
  | zero =>
    exact bridgeStep_shape _ (fun h n r h' heq => absurd heq (by simp))
  | succ f ih =>
    exact bridgeStep_shape _ ih

theorem setBridge_lookup_self (h : HierState) (n : String) (bg : List BridgeMetaedge)
    (node : HrNode) (hl : lookupA h.index n = some node) :
    lookupA (setBridge h n bg).index n = some { node with bridgegraph := some bg } := by
  simp [setBridge, hl]

/-- A successful `bridgeStep` that returns a graph leaves that graph in
the node's `bridgegraph` cache (provided the continuation only writes
caches). -/
theorem bridgeStep_caches
    (recur : HierState → String → Except String (Option (List BridgeMetaedge) × HierState))
    (hrec : ∀ h n r h', recur h n = .ok (r, h') →
      (∀ m, (lookupA h'.index m).map nodeShape = (lookupA h.index m).map nodeShape) ∧
        h'.orderings = h.orderings) :
    ∀ h n bg h', bridgeStep recur h n = .ok (some bg, h') →
      ∃ node', lookupA h'.index n = some node' ∧ node'.isGroup = true ∧
        node'.bridgegraph = some bg := by
  intro h n bg h' heq
  simp only [bridgeStep] at heq
  split at heq
  · exact absurd heq (by simp)
  · rename_i x3 node hnode
    split at heq
    · rename_i hgrp
      simp at heq
    · rename_i hgrp
      have hgrp' : node.isGroup = true := by
        cases hh : node.isGroup
        · exact absurd hh hgrp
        · rfl
      split at heq
      · rename_i bg₀ hbg
        cases heq
        exact ⟨node, hnode, hgrp', hbg⟩
      · split at heq
        · cases heq
          exact ⟨{ node with bridgegraph := some [] },
            setBridge_lookup_self h n [] node hnode, hgrp', rfl⟩
        · split at heq
          · cases heq
            exact ⟨{ node with bridgegraph := some [] },
              setBridge_lookup_self h n [] node hnode, hgrp', rfl⟩
          · split at heq
            · cases heq
              exact ⟨{ node with bridgegraph := some [] },
                setBridge_lookup_self h n [] node hnode, hgrp', rfl⟩
            · rename_i hbg pname hpar x0 pnode hplook hpgrp
              cases hcall : recur (setBridge h n []) pname with
              | error e =>
                rw [hcall] at heq
                exact absurd heq (by simp [Bind.bind, Except.bind])
              | ok p =>
                obtain ⟨pbg, h₂⟩ := p
                rw [hcall] at heq
                simp only [Bind.bind, Except.bind] at heq
                cases hb1 : processParentGraph h₂ n
                    (pnode.metagraph.map (fun m => (m.v, m.w, m.baseEdgeList))) [] with
                | error e => rw [hb1] at heq; exact absurd heq (by simp)
                | ok bg₁ =>
                  rw [hb1] at heq
                  simp only [] at heq
                  cases hb2 : processParentGraph h₂ n
                      ((pbg.getD []).map (fun m => (m.v, m.w, m.baseEdgeList))) bg₁ with
                  | error e => rw [hb2] at heq; exact absurd heq (by simp)
                  | ok bg₂ =>
                    rw [hb2] at heq
                    simp only [pure, Except.pure, Except.ok.injEq, Prod.mk.injEq,
                      Option.some.injEq] at heq
                    obtain ⟨hr, hh⟩ := heq
                    subst hr
                    subst hh
                    have hshape := (hrec _ _ _ _ hcall).1 n
                    rw [setBridge_lookup_self h n [] node hnode] at hshape
                    obtain ⟨node₂, hn₂, hs₂⟩ := Option.map_eq_some'.mp hshape
                    have hg₂ : node₂.isGroup = node.isGroup := congrArg Prod.fst hs₂
                    exact ⟨{ node₂ with bridgegraph := some bg₂ },
                      setBridge_lookup_self h₂ n bg₂ node₂ hn₂, by rw [hg₂, hgrp'], rfl⟩

/-- A successful `getBridgegraph` that returns a graph leaves that graph
in the node's `bridgegraph` cache. -/
theorem getBridgegraphF_caches (fuel : Nat) (h : HierState) (n : String)
    (bg : List BridgeMetaedge) (h' : HierState)
    (heq : getBridgegraphF fuel h n = .ok (some bg, h')) :
    ∃ node', lookupA h'.index n = some node' ∧ node'.isGroup = true ∧
      node'.bridgegraph = some bg := by
  cases fuel with
  | zero =>
    exact bridgeStep_caches _ (fun h n r h' heq => absurd heq (by simp)) h n bg h' heq
  | succ f =>
    exact bridgeStep_caches _ (getBridgegraphF_shape f) h n bg h' heq

/-- C8: calling the Bridge Router or the Ordering Engine a second time
for the same container, without rebuilding the hierarchy, returns
exactly the memoized result of the first call, with the hierarchy state
unchanged. -/
theorem hierarchy_queries_memoized (h hb ht : HierState) (name : String)
    (fuel fuel' : Nat) (bg : List BridgeMetaedge) (r : List (String × Nat)) :
    (getBridgegraphF fuel h name = .ok (some bg, hb) →
      getBridgegraphF fuel' hb name = .ok (some bg, hb)) ∧
    (getTopologicalOrderingH h name = .ok (some r, ht) →
      getTopologicalOrderingH ht name = .ok (some r, ht)) := by
  constructor
  · intro h1
    obtain ⟨node', hl, hg, hcache⟩ := getBridgegraphF_caches fuel h name bg hb h1
    have hmemo : ∀ recur, bridgeStep recur hb name = .ok (some bg, hb) := by
      intro recur
      simp [bridgeStep, hl, hg, hcache]
    cases fuel' with
    | zero => exact hmemo _
    | succ f => exact hmemo _
  · intro h1
    simp only [getTopologicalOrderingH] at h1
    split at h1
    · exact absurd h1 (by simp)
    · rename_i x node hnode
      split at h1
      · simp at h1
      · rename_i hgrp
        split at h1
        · rename_i o ho
          cases h1
          simp only [getTopologicalOrderingH, hnode, if_neg hgrp, ho]
        · rename_i ho
          cases h1
          simp only [getTopologicalOrderingH, hnode, if_neg hgrp, lookupA_updateA_self]

/-- A one-container hierarchy before any query. -/
def c8State0 : HierState := { index := [("A", { isGroup := true })] }

/-- `c8State0` after a first `getBridgegraph("A")` call (the empty
bridgegraph is cached on the node). -/
def c8State1 : HierState := { index := [("A", { isGroup := true, bridgegraph := some [] })] }

/-- `c8State0` after a first `getTopologicalOrdering("A")` call (the
ordering is cached in the hierarchy's orderings map). -/
def c8State2 : HierState := { index := [("A", { isGroup := true })], orderings := [("A", [])] }

/-- Witness for C8 at a concrete hierarchy: after the first call of
each query, the second call returns the cached result and leaves the
state unchanged. -/
theorem hierarchy_queries_memoized_witness :
    getBridgegraphF 2 c8State1 "A" = .ok (some [], c8State1) ∧
      getTopologicalOrderingH c8State2 "A" = .ok (some [], c8State2) :=
  ⟨(hierarchy_queries_memoized c8State0 c8State1 c8State2 "A" 1 2 [] []).1 (by rfl),
   (hierarchy_queries_memoized c8State0 c8State1 c8State2 "A" 1 2 [] []).2 (by rfl)⟩

end TfHierarchy

namespace TfHierarchy

/-! ## The Edge Builder (`addEdges`, hierarchy.ts 745-818)

For each raw edge of the flat graph, `addEdges` materializes the
ancestor chains of both endpoints (skipping the edge when an endpoint
is not in the flat node map, e.g. an embedding-only name), finds the
lowest shared ancestor by walking both chains from the root end until
they diverge, and folds the edge into the Metaedge between the two
divergent children inside the shared ancestor's metagraph. -/

/-- `getPath` (hierarchy.ts 760-767): the ancestor chain of a node,
leaf first, following `parentNode` links; the fuel bounds the walk
(callers pass `h.index.length`, enough for any acyclic chain). -/
def ancChain (h : HierState) : Nat → String → List String
  | 0, cur => [cur]
  | fuel + 1, cur =>
    cur :: (match (lookupA h.index cur).bind (fun nd => nd.parentName) with
      | none => []
      | some p => ancChain h fuel p)

/-- The divergence walk of `addEdges` (hierarchy.ts 780-790) on
root-first ancestor chains whose first elements `prev` were equal:
advance while the chains agree; if one chain is exhausted while they
still agree the source throws (`sourceAncestorIndex`/`destAncestorIndex`
fell below 0); at the first disagreement return the last shared
ancestor and the two divergent children. -/
def lcaWalk : String → List String → List String → Except String (String × String × String)
  | _, [], _ => .error "No difference found between ancestor paths."
  | _, _ :: _, [] => .error "No difference found between ancestor paths."
  | prev, s :: ss, d :: ds =>
    if s = d then lcaWalk s ss ds else .ok (prev, s, d)

/-- Find the lowest common ancestor given the two root-first ancestor
chains.  (If the two chains disagree already at the root, the source
reads a stale entry of its reused path buffer; both chains end at the
root in any well-formed hierarchy, so this is embedded as an error.) -/
def findLCA : List String → List String → Except String (String × String × String)
  | s :: ss, d :: ds =>
    if s = d then lcaWalk s ss ds
    else .error "No difference found between ancestor paths."
  | _, _ => .error "No difference found between ancestor paths."

/-- `metagraph.edge(v, w)`: the Metaedge between `v` and `w`. -/
def findMeta : List MetaE → String → String → Option MetaE
  | [], _, _ => none
  | m :: t, v, w => if m.v = v ∧ m.w = w then some m else findMeta t v w

/-- Find-or-create the Metaedge between `v` and `w` and append the base
edge to its base-edge list (hierarchy.ts 798-809, 816). -/
def addMetaBase : List MetaE → String → String → BaseEdge → List MetaE
  | [], v, w, e => [{ v := v, w := w, baseEdgeList := [e] }]
  | m :: t, v, w, e =>
    if m.v = v ∧ m.w = w then { m with baseEdgeList := m.baseEdgeList ++ [e] } :: t
    else m :: addMetaBase t v w e

/-- Process one raw edge (the `_.each(graph.edges, ...)` body,
hierarchy.ts 768-817): skip it if either endpoint is missing from the
flat node map; find the lowest common ancestor of the endpoints; attach
the base edge to the Metaedge between the two divergent children in the
shared ancestor's metagraph and update `hasNonControlEdges`. -/
def processEdge (slim : List String) (h : HierState) (e : BaseEdge) :
    Except String HierState :=
  if (slim.contains e.v && slim.contains e.w) = false then .ok h
  else
    match findLCA ((ancChain h h.index.length e.v).reverse)
        ((ancChain h h.index.length e.w).reverse) with
    | .error msg => .error msg
    | .ok (shared, srcName, dstName) =>
      match lookupA h.index shared with
      | none => .error ("Cannot attach edge at missing ancestor: " ++ shared)
      | some snode =>
        let snode' : HrNode :=
          { snode with
            metagraph := addMetaBase snode.metagraph srcName dstName e,
            hasNonControlEdges := snode.hasNonControlEdges || !e.isControlDependency }
        .ok { h with index := updateA h.index shared snode' }

/-- `addEdges` (hierarchy.ts 745-818) over the flat graph's edge list.
`slim` is the set of node names of the flat graph (`graph.nodes`). -/
def addEdgesList (slim : List String) (h : HierState) (es : List BaseEdge) :
    Except String HierState :=
  es.foldlM (fun acc e => processEdge slim acc e) h

/-- The location the Edge Builder computes for a raw edge: `none` when
the edge is skipped, else the shared ancestor and the two divergent
children (source side, destination side). -/
def edgeKey (h : HierState) (slim : List String) (e : BaseEdge) :
    Option (String × String × String) :=
  if (slim.contains e.v && slim.contains e.w) = false then none
  else
    (findLCA ((ancChain h h.index.length e.v).reverse)
      ((ancChain h h.index.length e.w).reverse)).toOption

/-- The base-edge list of the Metaedge between `v` and `w` inside
container `c`'s metagraph (`none` when there is no such Metaedge). -/
def metaBaseList (h : HierState) (c v w : String) : Option (List BaseEdge) :=
  (lookupA h.index c).bind (fun node => (findMeta node.metagraph v w).map (fun m => m.baseEdgeList))

end TfHierarchy

namespace TfHierarchy

/-! ### C6 — edges with unresolvable endpoints are silently skipped -/

/-- C6: a raw edge with an endpoint missing from the flat node map
(e.g. an embedding-only name, whose ancestor path comes out as `-1`) is
silently skipped by the Edge Builder: the hierarchy is returned
unchanged — no Metaedge is created or modified — and no error is
raised. -/
theorem addEdges_skips_unresolvable (h : HierState) (slim : List String) (e : BaseEdge)
    (hmiss : slim.contains e.v = false ∨ slim.contains e.w = false) :
    processEdge slim h e = .ok h := by
  unfold processEdge
  have hc : (slim.contains e.v && slim.contains e.w) = false := by
    rcases hmiss with h1 | h1
    · rw [h1, Bool.false_and]
    · rw [h1, Bool.and_false]
  rw [if_pos hc]

/-- Witness for C6: an edge whose source only exists as an embedding
(it is absent from the flat node map) is dropped without error. -/
theorem addEdges_skips_unresolvable_witness :
    processEdge ["root/op"] c9State { v := "root/op/summary", w := "root/op" } =
      .ok c9State :=
  addEdges_skips_unresolvable c9State ["root/op"]
    { v := "root/op/summary", w := "root/op" } (Or.inl (by decide))

/-! ### C2 — every raw edge is attached at its lowest common container -/

theorem updateA_length_present {α : Type} :
    ∀ (l : List (String × α)) (k : String) (v x : α), lookupA l k = some x →
      (updateA l k v).length = l.length := by
  intro l
  induction l with
  | nil => intro k v x hx; simp [lookupA] at hx
  | cons p t ih =>
    intro k v x hx
    obtain ⟨k₀, v₀⟩ := p
    by_cases h₀ : k₀ = k
    · simp [updateA, h₀]
    · simp only [lookupA, if_neg h₀] at hx
      simp [updateA, if_neg h₀, ih k v x hx]

/-- `ancChain` only depends on the parent structure of the index. -/
theorem ancChain_congr (h h' : HierState)
    (hpar : ∀ m, (lookupA h'.index m).map (fun nd => nd.parentName) =
      (lookupA h.index m).map (fun nd => nd.parentName)) :
    ∀ (fuel : Nat) (cur : String), ancChain h' fuel cur = ancChain h fuel cur := by
  intro fuel
  induction fuel with
  | zero => intro cur; rfl
  | succ f ih =>
    intro cur
    have hb : (lookupA h'.index cur).bind (fun nd => nd.parentName) =
        (lookupA h.index cur).bind (fun nd => nd.parentName) := by
      have hm := hpar cur
      cases hx : lookupA h'.index cur <;> cases hy : lookupA h.index cur <;>
        rw [hx, hy] at hm <;> simp_all
    cases hres : (lookupA h.index cur).bind (fun nd => nd.parentName) with
    | none => simp only [ancChain, hb, hres]
    | some p =>
      simp only [ancChain, hb, hres]
      rw [ih p]

/-- `edgeKey` only depends on the parent structure of the index. -/
theorem edgeKey_congr (h h' : HierState) (slim : List String)
    (hlen : h'.index.length = h.index.length)
    (hpar : ∀ m, (lookupA h'.index m).map (fun nd => nd.parentName) =
      (lookupA h.index m).map (fun nd => nd.parentName)) (e : BaseEdge) :
    edgeKey h' slim e = edgeKey h slim e := by
  unfold edgeKey
  rw [hlen, ancChain_congr h h' hpar, ancChain_congr h h' hpar]

/-- `processEdge` preserves index length and every node's parent. -/
theorem processEdge_parent_pres (slim : List String) (h : HierState) (e : BaseEdge)
    (h' : HierState) (heq : processEdge slim h e = .ok h') :
    h'.index.length = h.index.length ∧
      ∀ m, (lookupA h'.index m).map (fun nd => nd.parentName) =
        (lookupA h.index m).map (fun nd => nd.parentName) := by
  unfold processEdge at heq
  split at heq
  · cases heq
    exact ⟨rfl, fun m => rfl⟩
  · split at heq
    · exact absurd heq (by simp)
    · rename_i hres shared srcName dstName hsplit
      split at heq
      · exact absurd heq (by simp)
      · rename_i snode hsnode
        cases heq
        refine ⟨updateA_length_present h.index shared _ snode hsnode, fun m => ?_⟩
        by_cases hm : m = shared
        · subst hm
          simp [lookupA_updateA_self, hsnode]
        · simp [lookupA_updateA_other _ _ _ _ hm]

end TfHierarchy

namespace TfHierarchy

/-- Appending a batch of base edges to an optional base-edge list
(`none` = the Metaedge does not exist yet). -/
def mergeRep : Option (List BaseEdge) → List BaseEdge → Option (List BaseEdge)
  | cur, [] => cur
  | none, l => some l
  | some b, l => some (b ++ l)

theorem mergeRep_assoc (cur : Option (List BaseEdge)) (a b : List BaseEdge) :
    mergeRep (mergeRep cur a) b = mergeRep cur (a ++ b) := by
  cases a with
  | nil =>
    cases cur <;> simp [mergeRep]
  | cons x xs =>
    cases b with
    | nil => cases cur <;> simp [mergeRep]
    | cons y ys => cases cur <;> simp [mergeRep]

theorem findMeta_addMetaBase_self (mg : List MetaE) (v w : String) (e : BaseEdge) :
    (findMeta (addMetaBase mg v w e) v w).map (fun m => m.baseEdgeList) =
      mergeRep ((findMeta mg v w).map (fun m => m.baseEdgeList)) [e] := by
  induction mg with
  | nil => simp [findMeta, addMetaBase, mergeRep]
  | cons m t ih =>
    by_cases hm : m.v = v ∧ m.w = w
    · simp [findMeta, addMetaBase, hm, mergeRep]
    · simp [findMeta, addMetaBase, hm, ih]

theorem findMeta_addMetaBase_other (mg : List MetaE) (v w v' w' : String) (e : BaseEdge)
    (hne : ¬(v' = v ∧ w' = w)) :
    findMeta (addMetaBase mg v w e) v' w' = findMeta mg v' w' := by
  induction mg with
  | nil =>
    have : ¬(v = v' ∧ w = w') := fun ⟨h1, h2⟩ => hne ⟨h1.symm, h2.symm⟩
    simp [findMeta, addMetaBase, this]
  | cons m t ih =>
    by_cases hm : m.v = v ∧ m.w = w
    · have hn : ¬(m.v = v' ∧ m.w = w') := by
        intro ⟨h1, h2⟩
        exact hne ⟨h1.symm.trans hm.1, h2.symm.trans hm.2⟩
      simp only [addMetaBase, if_pos hm, findMeta]
      rw [if_neg hn, if_neg hn]
    · simp only [addMetaBase, if_neg hm, findMeta]
      by_cases hn : m.v = v' ∧ m.w = w'
      · rw [if_pos hn, if_pos hn]
      · rw [if_neg hn, if_neg hn, ih]

/-- The effect of one `processEdge` on every Metaedge's base-edge list:
the edge is appended exactly at its `edgeKey` location. -/
theorem processEdge_metaBase (slim : List String) (h : HierState) (e : BaseEdge)
    (h' : HierState) (heq : processEdge slim h e = .ok h') (c v w : String) :
    metaBaseList h' c v w =
      mergeRep (metaBaseList h c v w)
        (if edgeKey h slim e = some (c, v, w) then [e] else []) := by
  unfold processEdge at heq
  split at heq
  · rename_i hc
    cases heq
    have hk : edgeKey h slim e = none := by
      unfold edgeKey
      rw [if_pos hc]
    rw [hk]
    simp [mergeRep]
  · rename_i hc
    split at heq
    · exact absurd heq (by simp)
    · rename_i hres shared srcName dstName hsplit
      have hk : edgeKey h slim e = some (shared, srcName, dstName) := by
        unfold edgeKey
        rw [if_neg hc, hsplit]
        rfl
      split at heq
      · exact absurd heq (by simp)
      · rename_i snode hsnode
        cases heq
        rw [hk]
        by_cases hcs : c = shared
        · subst hcs
          unfold metaBaseList
          simp only [lookupA_updateA_self, hsnode, Option.some_bind]
          by_cases hvw : v = srcName ∧ w = dstName
          · obtain ⟨hv, hw⟩ := hvw
            subst hv
            subst hw
            rw [if_pos rfl]
            exact findMeta_addMetaBase_self snode.metagraph v w e
          · have hcond : ¬(some (c, srcName, dstName) =
                some ((c, v, w) : String × String × String)) := by
              intro hh
              simp only [Option.some.injEq, Prod.mk.injEq] at hh
              exact hvw ⟨hh.2.1.symm, hh.2.2.symm⟩
            rw [if_neg hcond]
            rw [findMeta_addMetaBase_other snode.metagraph srcName dstName v w e hvw]
            cases hf : (findMeta snode.metagraph v w).map (fun m => m.baseEdgeList) <;>
              simp [mergeRep]
        · have hcond : ¬(some (shared, srcName, dstName) =
              some ((c, v, w) : String × String × String)) := by
            intro hh
            simp only [Option.some.injEq, Prod.mk.injEq] at hh
            exact hcs hh.1.symm
          rw [if_neg hcond]
          unfold metaBaseList
          rw [lookupA_updateA_other _ _ _ _ hcs]
          cases hf : (lookupA h.index c).bind
              (fun node => (findMeta node.metagraph v w).map (fun m => m.baseEdgeList)) <;>
            simp [mergeRep]

end TfHierarchy

namespace TfHierarchy

@[simp] theorem mergeRep_nil (cur : Option (List BaseEdge)) : mergeRep cur [] = cur := by
  cases cur <;> rfl

/-- The cumulative effect of `addEdges` on every Metaedge's base-edge
list: each Metaedge holds exactly the processed edges whose `edgeKey`
is its location, in input order. -/
theorem addEdgesList_metaBase (slim : List String) :
    ∀ (es : List BaseEdge) (h h' : HierState), addEdgesList slim h es = .ok h' →
      ∀ c v w, metaBaseList h' c v w =
        mergeRep (metaBaseList h c v w)
          (es.filter (fun e => decide (edgeKey h slim e = some (c, v, w)))) := by
  intro es
  induction es with
  | nil =>
    intro h h' heq c v w
    simp only [addEdgesList, List.foldlM_nil] at heq
    cases heq
    simp
  | cons e es ih =>
    intro h h' heq c v w
    simp only [addEdgesList, List.foldlM_cons] at heq
    cases hp : processEdge slim h e with
    | error msg =>
      rw [hp] at heq
      exact absurd heq (by simp [Bind.bind, Except.bind])
    | ok h₁ =>
      rw [hp] at heq
      simp only [Bind.bind, Except.bind] at heq
      have hrest : addEdgesList slim h₁ es = .ok h' := heq
      have hpres := processEdge_parent_pres slim h e h₁ hp
      have hkeys : ∀ e₂, edgeKey h₁ slim e₂ = edgeKey h slim e₂ :=
        edgeKey_congr h h₁ slim hpres.1 hpres.2
      have hstep := processEdge_metaBase slim h e h₁ hp c v w
      have hfold := ih h₁ h' hrest c v w
      rw [hfold, hstep, mergeRep_assoc]
      have hfilter : es.filter (fun e₂ => decide (edgeKey h₁ slim e₂ = some (c, v, w))) =
          es.filter (fun e₂ => decide (edgeKey h slim e₂ = some (c, v, w))) := by
        apply List.filter_congr
        intro x hx
        rw [hkeys x]
      rw [hfilter]
      congr 1
      rw [List.filter_cons]
      by_cases hcond : edgeKey h slim e = some (c, v, w)
      · rw [if_pos hcond]
        simp [hcond]
      · rw [if_neg hcond]
        simp [hcond]

theorem metaBaseList_empty (h₀ : HierState)
    (hempty : ∀ n nd, lookupA h₀.index n = some nd → nd.metagraph = [])
    (c v w : String) : metaBaseList h₀ c v w = none := by
  unfold metaBaseList
  cases hl : lookupA h₀.index c with
  | none => rfl
  | some nd =>
    simp only [Option.some_bind]
    rw [hempty c nd hl]
    rfl

theorem ancChain_head (h : HierState) (fuel : Nat) (cur : String) :
    ∃ t, ancChain h fuel cur = cur :: t := by
  cases fuel with
  | zero => exact ⟨[], rfl⟩
  | succ f => exact ⟨_, rfl⟩

/-- Consecutive entries of an ancestor chain are in the parent
relation: the second is the parent of the first. -/
theorem ancChain_adjacent (h : HierState) :
    ∀ (fuel : Nat) (cur : String) (p r : List String) (x y : String),
      ancChain h fuel cur = p ++ x :: y :: r →
      (lookupA h.index x).bind (fun nd => nd.parentName) = some y := by
  intro fuel
  induction fuel with
  | zero =>
    intro cur p r x y hchain
    have hlen := congrArg List.length hchain
    simp [ancChain] at hlen
    omega
  | succ f ih =>
    intro cur p r x y hchain
    simp only [ancChain] at hchain
    cases hpar : (lookupA h.index cur).bind (fun nd => nd.parentName) with
    | none =>
      rw [hpar] at hchain
      have hlen := congrArg List.length hchain
      simp at hlen
      omega
    | some q =>
      rw [hpar] at hchain
      cases p with
      | nil =>
        simp only [List.nil_append, List.cons.injEq] at hchain
        obtain ⟨hx, ht⟩ := hchain
        subst hx
        obtain ⟨t, hhead⟩ := ancChain_head h f q
        rw [hhead] at ht
        injection ht with h1 h2
        rw [hpar, h1]
      | cons z p' =>
        simp only [List.cons_append, List.cons.injEq] at hchain
        exact ih q p' r x y hchain.2

/-- Decomposition of a successful divergence walk: the result is the
last shared entry (`c`) followed by the two divergent entries. -/
theorem lcaWalk_decomp :
    ∀ (sr dr : List String) (prev c a b : String), lcaWalk prev sr dr = .ok (c, a, b) →
      ∃ pre sr' dr', prev :: sr = pre ++ c :: a :: sr' ∧ prev :: dr = pre ++ c :: b :: dr' ∧
        a ≠ b := by
  intro sr
  induction sr with
  | nil =>
    intro dr prev c a b heq
    simp [lcaWalk] at heq
  | cons s ss ih =>
    intro dr prev c a b heq
    cases dr with
    | nil => simp [lcaWalk] at heq
    | cons d ds =>
      simp only [lcaWalk] at heq
      by_cases hsd : s = d
      · rw [if_pos hsd] at heq
        obtain ⟨pre, sr', dr', h1, h2, hne⟩ := ih ds s c a b heq
        subst hsd
        exact ⟨prev :: pre, sr', dr',
          by rw [List.cons_append, ← h1], by rw [List.cons_append, ← h2], hne⟩
      · rw [if_neg hsd] at heq
        simp only [Except.ok.injEq, Prod.mk.injEq] at heq
        obtain ⟨hc, ha, hb⟩ := heq
        subst hc
        subst ha
        subst hb
        exact ⟨[], ss, ds, rfl, rfl, hsd⟩

/-- Decomposition of a successful lowest-common-ancestor search on two
root-first chains. -/
theorem findLCA_decomp (S D : List String) (c a b : String)
    (heq : findLCA S D = .ok (c, a, b)) :
    ∃ pre sr' dr', S = pre ++ c :: a :: sr' ∧ D = pre ++ c :: b :: dr' ∧ a ≠ b := by
  cases S with
  | nil => simp [findLCA] at heq
  | cons s ss =>
    cases D with
    | nil => simp [findLCA] at heq
    | cons d ds =>
      simp only [findLCA] at heq
      by_cases hsd : s = d
      · rw [if_pos hsd] at heq
        subst hsd
        exact lcaWalk_decomp ss ds s c a b heq
      · rw [if_neg hsd] at heq
        exact absurd heq (by simp)

theorem reverse_decomp (L pre sr' : List String) (c a : String)
    (h : L.reverse = pre ++ c :: a :: sr') :
    L = sr'.reverse ++ a :: c :: pre.reverse := by
  have h2 := congrArg List.reverse h
  rw [List.reverse_reverse] at h2
  rw [h2]
  simp

end TfHierarchy

namespace TfHierarchy

/-- C2: starting from a hierarchy with no metaedges, `addEdges` attaches
every resolvable raw edge to exactly one Metaedge — the one between the
two divergent children (`a` on the source side, `b` on the destination
side) inside the metagraph of their lowest common container `c`; two
raw edges with the same location end up aggregated in that very same
Metaedge's base-edge list.  The last conjuncts justify calling the
location a lowest common container: `a` and `b` are distinct children
of `c` lying on the ancestor chains of the edge's two endpoints. -/
theorem addEdges_attaches_at_lowest_common_ancestor
    (slim : List String) (h₀ h : HierState) (es : List BaseEdge) (e : BaseEdge)
    (c a b : String)
    (hempty : ∀ n nd, lookupA h₀.index n = some nd → nd.metagraph = [])
    (hrun : addEdgesList slim h₀ es = .ok h)
    (he : e ∈ es) (hkey : edgeKey h₀ slim e = some (c, a, b)) :
    (∃ l, metaBaseList h c a b = some l ∧ e ∈ l ∧
      ∀ e₂ ∈ es, edgeKey h₀ slim e₂ = some (c, a, b) → e₂ ∈ l) ∧
    (∀ c' v' w' l', metaBaseList h c' v' w' = some l' → e ∈ l' →
      (c', v', w') = (c, a, b)) ∧
    (lookupA h₀.index a).bind (fun nd => nd.parentName) = some c ∧
    (lookupA h₀.index b).bind (fun nd => nd.parentName) = some c ∧
    a ∈ ancChain h₀ h₀.index.length e.v ∧ b ∈ ancChain h₀ h₀.index.length e.w ∧
    a ≠ b := by
  have hchar := addEdgesList_metaBase slim es h₀ h hrun
  have hbase : ∀ c' v' w', metaBaseList h₀ c' v' w' = none :=
    metaBaseList_empty h₀ hempty
  -- the LCA structure of the key
  have hlca : findLCA ((ancChain h₀ h₀.index.length e.v).reverse)
      ((ancChain h₀ h₀.index.length e.w).reverse) = .ok (c, a, b) := by
    unfold edgeKey at hkey
    split at hkey
    · exact absurd hkey (by simp)
    · cases hf : findLCA ((ancChain h₀ h₀.index.length e.v).reverse)
          ((ancChain h₀ h₀.index.length e.w).reverse) with
      | error msg => rw [hf] at hkey; exact absurd hkey (by simp [Except.toOption])
      | ok trip =>
        rw [hf] at hkey
        simp only [Except.toOption, Option.some.injEq] at hkey
        rw [hkey]
  obtain ⟨pre, sr', dr', hS, hD, hne⟩ :=
    findLCA_decomp _ _ c a b hlca
  have hSrc := reverse_decomp _ _ _ _ _ hS
  have hDst := reverse_decomp _ _ _ _ _ hD
  have hparA : (lookupA h₀.index a).bind (fun nd => nd.parentName) = some c :=
    ancChain_adjacent h₀ h₀.index.length e.v _ _ a c hSrc
  have hparB : (lookupA h₀.index b).bind (fun nd => nd.parentName) = some c :=
    ancChain_adjacent h₀ h₀.index.length e.w _ _ b c hDst
  have hmemA : a ∈ ancChain h₀ h₀.index.length e.v := by
    rw [hSrc]; simp
  have hmemB : b ∈ ancChain h₀ h₀.index.length e.w := by
    rw [hDst]; simp
  -- the aggregation facts
  refine ⟨?_, ?_, hparA, hparB, hmemA, hmemB, hne⟩
  · refine ⟨es.filter (fun e₂ => decide (edgeKey h₀ slim e₂ = some (c, a, b))), ?_, ?_, ?_⟩
    · rw [hchar c a b, hbase]
      cases hfl : es.filter (fun e₂ => decide (edgeKey h₀ slim e₂ = some (c, a, b))) with
      | nil =>
        exfalso
        have : e ∈ es.filter (fun e₂ => decide (edgeKey h₀ slim e₂ = some (c, a, b))) :=
          List.mem_filter.mpr ⟨he, by simp [hkey]⟩
        rw [hfl] at this
        exact absurd this (by simp)
      | cons x xs => rfl
    · exact List.mem_filter.mpr ⟨he, by simp [hkey]⟩
    · intro e₂ he₂ hkey₂
      exact List.mem_filter.mpr ⟨he₂, by simp [hkey₂]⟩
  · intro c' v' w' l' hml hmem
    rw [hchar c' v' w', hbase] at hml
    cases hfl : es.filter (fun e₂ => decide (edgeKey h₀ slim e₂ = some (c', v', w'))) with
    | nil =>
      rw [hfl] at hml
      exact absurd hml (by simp [mergeRep])
    | cons x xs =>
      rw [hfl] at hml
      have hl' : l' = x :: xs := by
        simp only [mergeRep, Option.some.injEq] at hml
        exact hml.symm
      subst hl'
      rw [← hfl] at hmem
      have := (List.mem_filter.mp hmem).2
      simp only [decide_eq_true_eq] at this
      rw [hkey] at this
      injection this with h1
      exact h1.symm ▸ rfl

end TfHierarchy

namespace TfHierarchy

/-- Concrete hierarchy for the C2 witness: container `A` under the root
holding the two op nodes `A/x` and `A/y`. -/
def c2State0 : HierState :=
  { index := [("__root__", { isGroup := true }),
              ("A", { isGroup := true, parentName := some "__root__" }),
              ("A/x", { isGroup := false, parentName := some "A" }),
              ("A/y", { isGroup := false, parentName := some "A" })] }

/-- The flat node map of the C2 witness graph. -/
def c2Slim : List String := ["A/x", "A/y"]

/-- Two raw edges between `A/x` and `A/y` (distinct tensor keys). -/
def c2E1 : BaseEdge := { v := "A/x", w := "A/y", outputTensorKey := "0" }

def c2E2 : BaseEdge := { v := "A/x", w := "A/y", outputTensorKey := "1" }

/-- The hierarchy after the Edge Builder has processed both edges. -/
def c2Final : HierState :=
  (addEdgesList c2Slim c2State0 [c2E1, c2E2]).toOption.getD c2State0

theorem c2State0_empty_metagraphs :
    ∀ n nd, lookupA c2State0.index n = some nd → nd.metagraph = [] := by
  intro n nd hl
  simp only [c2State0, lookupA] at hl
  split at hl
  · cases hl; rfl
  · split at hl
    · cases hl; rfl
    · split at hl
      · cases hl; rfl
      · split at hl
        · cases hl; rfl
        · exact absurd hl (by simp)

/-- Witness for C2: both raw edges between `A/x` and `A/y` land in the
single Metaedge of container `A`'s metagraph, and in no other. -/
theorem addEdges_attaches_witness :
    ∃ l, metaBaseList c2Final "A" "A/x" "A/y" = some l ∧ c2E1 ∈ l ∧ c2E2 ∈ l ∧
      ∀ c' v' w' l', metaBaseList c2Final c' v' w' = some l' → c2E1 ∈ l' →
        (c', v', w') = ("A", "A/x", "A/y") := by
  obtain ⟨⟨l, hl, hmem, hall⟩, huniq, -⟩ :=
    addEdges_attaches_at_lowest_common_ancestor c2Slim c2State0 c2Final
      [c2E1, c2E2] c2E1 "A" "A/x" "A/y" c2State0_empty_metagraphs (by rfl)
      (by decide) (by rfl)
  exact ⟨l, hl, hmem, hall c2E2 (by decide) (by rfl), huniq⟩

end TfHierarchy

namespace TfHierarchy

/-! ## The Stats Aggregator (`joinAndAggregateStats`, hierarchy.ts 534-580)

`StatNode` embeds the slice of a node that the stats rollup reads and
writes.  Performance stats (`NodeStats`, common.ts, outside this
repository slice) are modelled from the spec as an associative,
commutative aggregate: a `Nat` total with `combine = (+)` and
`new NodeStats(null) = 0`; a node's `stats` is nullable.  Histograms
are JS objects (insertion-ordered string → count maps). -/

structure StatNode where
  isGroup : Bool
  parentName : Option String := none
  device : Option String := none
  xlaCluster : Option String := none
  deviceHistogram : List (String × Nat) := []
  xlaClusterHistogram : List (String × Nat) := []
  stats : Option Nat := none
deriving DecidableEq, Repr

/-- The hierarchy slice for the stats rollup: the name → node index,
the list of leaf names (`h.root.leaves()`, graph.ts — modelled from the
spec: the leaf op nodes under the root), and the device/cluster name
lists the rollup recomputes. -/
structure StatHier where
  index : List (String × StatNode)
  leaves : List String
  devices : List String := []
  xlaClusters : List String := []
deriving DecidableEq, Repr

/-- The `(histogram[k] || 0) + 1` idiom. -/
def bumpHist (hist : List (String × Nat)) (k : String) : List (String × Nat) :=
  match lookupA hist k with
  | some n => updateA hist k (n + 1)
  | none => updateA hist k 1

/-- Collect the distinct device and xla-cluster names over the leaves
(hierarchy.ts 538-551). -/
def collectNames (h : StatHier) : List String × List String :=
  h.leaves.foldl
    (fun acc ln =>
      match lookupA h.index ln with
      | none => acc
      | some leaf =>
        ((match leaf.device with
          | some d => if acc.1.contains d then acc.1 else acc.1 ++ [d]
          | none => acc.1),
         (match leaf.xlaCluster with
          | some x => if acc.2.contains x then acc.2 else acc.2 ++ [x]
          | none => acc.2)))
    ([], [])

/-- Reset each group node's stats and device histogram (hierarchy.ts
553-558).  The xla-cluster histogram is not reset by the source. -/
def resetGroupStats (idx : List (String × StatNode)) : List (String × StatNode) :=
  idx.map (fun p =>
    (p.1, if p.2.isGroup then { p.2 with stats := some 0, deviceHistogram := [] } else p.2))

/-- One step of the leaf walk (hierarchy.ts 563-577): add the leaf's
device/cluster counts into the parent's histograms and combine the
leaf's stats into the parent's stats. -/
def bubbleStep (leaf : StatNode) (idx : List (String × StatNode)) (pname : String) :
    List (String × StatNode) :=
  match lookupA idx pname with
  | none => idx
  | some pn =>
    updateA idx pname
      { pn with
        deviceHistogram :=
          (match leaf.device with
           | some d => bumpHist pn.deviceHistogram d
           | none => pn.deviceHistogram),
        xlaClusterHistogram :=
          (match leaf.xlaCluster with
           | some x => bumpHist pn.xlaClusterHistogram x
           | none => pn.xlaClusterHistogram),
        stats :=
          (match leaf.stats with
           | some s => (match pn.stats with
                        | some t => some (t + s)
                        | none => none)
           | none => pn.stats) }

/-- The `while (node.parentNode != null)` walk from a leaf up the
ancestor chain (hierarchy.ts 563-578), with fuel (callers pass the
index size, enough for any acyclic parent chain). -/
def bubbleWalk (leaf : StatNode) : Nat → List (String × StatNode) → String →
    List (String × StatNode)
  | 0, idx, _ => idx
  | fuel + 1, idx, cur =>
    match (lookupA idx cur).bind (fun nd => nd.parentName) with
    | none => idx
    | some p => bubbleWalk leaf fuel (bubbleStep leaf idx p) p

/-- `joinAndAggregateStats` (hierarchy.ts 534-580): recompute the
device/cluster name lists from the leaves, reset every group node's
stats and device histogram, then walk every leaf's ancestor chain
bubbling its counts and stats upward. -/
def joinAndAggregateStats (h : StatHier) : StatHier :=
  let names := collectNames h
  let idx₁ := resetGroupStats h.index
  let idx₂ := h.leaves.foldl
    (fun idx ln =>
      match lookupA idx ln with
      | none => idx
      | some leaf => bubbleWalk leaf idx.length idx ln)
    idx₁
  { h with index := idx₂, devices := names.1, xlaClusters := names.2 }

/-- Concrete input for the C3 counterexample: a root container with one
leaf that has both a device and an xla cluster. -/
def c3State : StatHier :=
  { index := [("__root__", { isGroup := true }),
              ("a", { isGroup := false, parentName := some "__root__",
                      device := some "gpu0", xlaCluster := some "x",
                      stats := some 5 })],
    leaves := ["a"] }

/-- C3 counterexample, as stated: the rollup resets device histograms
but not xla-cluster histograms (hierarchy.ts 553-558 reset only `stats`
and `deviceHistogram`), so invoking it a second time changes the root's
xla-cluster histogram (1 becomes 2) while the device histogram stays at
the per-leaf sum 1. -/
theorem joinStats_second_invocation_changes_xla :
    ((lookupA (joinAndAggregateStats c3State).index "__root__").map
      (fun nd => (lookupA nd.xlaClusterHistogram "x", lookupA nd.deviceHistogram "gpu0")) =
      some (some 1, some 1)) ∧
    ((lookupA (joinAndAggregateStats (joinAndAggregateStats c3State)).index "__root__").map
      (fun nd => (lookupA nd.xlaClusterHistogram "x", lookupA nd.deviceHistogram "gpu0")) =
      some (some 2, some 1)) := by
  decide

end TfHierarchy

namespace TfHierarchy

/-- The fields of a node that the stats rollup never modifies. -/
def statShape (nd : StatNode) : Bool × Option String × Option String × Option String :=
  (nd.isGroup, nd.parentName, nd.device, nd.xlaCluster)

/-- The parent chain a leaf walk visits (matching `bubbleWalk`'s
traversal on any index with the same parent structure). -/
def walkPath (idx : List (String × StatNode)) : Nat → String → List String
  | 0, _ => []
  | fuel + 1, cur =>
    match (lookupA idx cur).bind (fun nd => nd.parentName) with
    | none => []
    | some p => p :: walkPath idx fuel p

/-- Occurrences of `g` in a list of names. -/
def countOcc (g : String) (l : List String) : Nat :=
  (l.filter (fun x => decide (x = g))).length

/-- A histogram bucket (`hist[d] || 0`). -/
def histVal (hist : List (String × Nat)) (d : String) : Nat := (lookupA hist d).getD 0

/-- The device count of a node of the index (0 when absent). -/
def dv (idx : List (String × StatNode)) (g d : String) : Nat :=
  ((lookupA idx g).map (fun nd => histVal nd.deviceHistogram d)).getD 0

/-- One leaf's contribution to container `g`'s device-`d` count: 1 per
visit of `g` on the leaf's ancestor walk if the leaf runs on `d`. -/
def leafDeviceContribution (idx : List (String × StatNode)) (fuel : Nat) (g d ln : String) :
    Nat :=
  match lookupA idx ln with
  | none => 0
  | some leaf => if leaf.device = some d then countOcc g (walkPath idx fuel ln) else 0

/-- The per-leaf sum the rollup should leave in container `g`'s device
histogram at device `d`. -/
def deviceRollup (h : StatHier) (g d : String) : Nat :=
  (h.leaves.map (leafDeviceContribution h.index h.index.length g d)).sum

@[simp] theorem countOcc_nil (g : String) : countOcc g [] = 0 := rfl

theorem countOcc_cons (g x : String) (l : List String) :
    countOcc g (x :: l) = (if x = g then 1 else 0) + countOcc g l := by
  by_cases hx : x = g
  · simp [countOcc, hx]
    omega
  · simp [countOcc, hx]

theorem histVal_bumpHist_self (hist : List (String × Nat)) (k : String) :
    histVal (bumpHist hist k) k = histVal hist k + 1 := by
  unfold bumpHist histVal
  cases hl : lookupA hist k with
  | none => simp [lookupA_updateA_self, hl]
  | some n => simp [lookupA_updateA_self, hl]

theorem histVal_bumpHist_other (hist : List (String × Nat)) (k k' : String) (hk : k' ≠ k) :
    histVal (bumpHist hist k) k' = histVal hist k' := by
  unfold bumpHist histVal
  cases hl : lookupA hist k with
  | none => rw [lookupA_updateA_other _ _ _ _ hk]
  | some n => rw [lookupA_updateA_other _ _ _ _ hk]

theorem bubbleStep_shape_pres (leaf : StatNode) (idx : List (String × StatNode)) (p : String) :
    (∀ m, (lookupA (bubbleStep leaf idx p) m).map statShape = (lookupA idx m).map statShape) ∧
      (bubbleStep leaf idx p).length = idx.length := by
  unfold bubbleStep
  cases hl : lookupA idx p with
  | none => exact ⟨fun m => rfl, rfl⟩
  | some pn =>
    constructor
    · intro m
      by_cases hm : m = p
      · subst hm
        simp [lookupA_updateA_self, hl, statShape]
      · simp [lookupA_updateA_other _ _ _ _ hm]
    · exact updateA_length_present idx p _ pn hl

theorem bubbleWalk_shape_pres (leaf : StatNode) :
    ∀ (fuel : Nat) (idx : List (String × StatNode)) (cur : String),
      (∀ m, (lookupA (bubbleWalk leaf fuel idx cur) m).map statShape =
        (lookupA idx m).map statShape) ∧
      (bubbleWalk leaf fuel idx cur).length = idx.length := by
  intro fuel
  induction fuel with
  | zero => intro idx cur; exact ⟨fun m => rfl, rfl⟩
  | succ f ih =>
    intro idx cur
    simp only [bubbleWalk]
    cases hp : (lookupA idx cur).bind (fun nd => nd.parentName) with
    | none => exact ⟨fun m => rfl, rfl⟩
    | some p =>
      have hstep := bubbleStep_shape_pres leaf idx p
      have hwalk := ih (bubbleStep leaf idx p) p
      exact ⟨fun m => (hwalk.1 m).trans (hstep.1 m), hwalk.2.trans hstep.2⟩

/-- `walkPath` only depends on the parent structure of the index. -/
theorem walkPath_congr (idx idx' : List (String × StatNode))
    (hshape : ∀ m, (lookupA idx' m).map statShape = (lookupA idx m).map statShape) :
    ∀ (fuel : Nat) (cur : String), walkPath idx' fuel cur = walkPath idx fuel cur := by
  intro fuel
  induction fuel with
  | zero => intro cur; rfl
  | succ f ih =>
    intro cur
    have hb : (lookupA idx' cur).bind (fun nd => nd.parentName) =
        (lookupA idx cur).bind (fun nd => nd.parentName) := by
      have hm := hshape cur
      cases hx : lookupA idx' cur <;> cases hy : lookupA idx cur <;>
        rw [hx, hy] at hm <;> simp_all [statShape]
    cases hres : (lookupA idx cur).bind (fun nd => nd.parentName) with
    | none => simp only [walkPath, hb, hres]
    | some p =>
      simp only [walkPath, hb, hres]
      rw [ih p]

end TfHierarchy

namespace TfHierarchy

theorem lookupA_map_val {α β : Type} (f : α → β) :
    ∀ (l : List (String × α)) (m : String),
      lookupA (l.map (fun p => (p.1, f p.2))) m = (lookupA l m).map f := by
  intro l
  induction l with
  | nil => intro m; rfl
  | cons p t ih =>
    intro m
    obtain ⟨k, v⟩ := p
    by_cases hk : k = m
    · simp [lookupA, hk]
    · simp [lookupA, hk, ih]

theorem bubbleStep_dv (leaf : StatNode) (idx : List (String × StatNode)) (p g d : String)
    (gn : StatNode) (hg : lookupA idx g = some gn) :
    dv (bubbleStep leaf idx p) g d =
      dv idx g d + (if p = g ∧ leaf.device = some d then 1 else 0) := by
  unfold bubbleStep
  cases hl : lookupA idx p with
  | none =>
    have hpg : ¬(p = g ∧ leaf.device = some d) := by
      intro hpd
      rw [hpd.1, hg] at hl
      exact absurd hl (by simp)
    rw [if_neg hpg]
    simp
  | some pn =>
    by_cases hpg : p = g
    · subst hpg
      have hpn : pn = gn := by
        rw [hg] at hl
        injection hl with hh
        exact hh.symm
      subst hpn
      unfold dv
      rw [lookupA_updateA_self, hg]
      simp only [Option.map_some', Option.getD_some]
      cases hld : leaf.device with
      | none => simp
      | some ld =>
        by_cases hldd : ld = d
        · subst hldd
          simp [histVal_bumpHist_self]
        · simp [histVal_bumpHist_other pn.deviceHistogram ld d (fun hh => hldd hh.symm), hldd]
    · unfold dv
      have hgp : g ≠ p := fun hh => hpg hh.symm
      rw [lookupA_updateA_other _ _ _ _ hgp]
      rw [if_neg (fun hpd => hpg hpd.1)]
      simp

theorem bubbleWalk_dv (leaf : StatNode) :
    ∀ (fuel : Nat) (idx : List (String × StatNode)) (cur g d : String) (gn : StatNode),
      lookupA idx g = some gn →
      dv (bubbleWalk leaf fuel idx cur) g d =
        dv idx g d +
          (if leaf.device = some d then countOcc g (walkPath idx fuel cur) else 0) := by
  intro fuel
  induction fuel with
  | zero =>
    intro idx cur g d gn hg
    simp [bubbleWalk, walkPath]
  | succ f ih =>
    intro idx cur g d gn hg
    simp only [bubbleWalk, walkPath]
    cases hp : (lookupA idx cur).bind (fun nd => nd.parentName) with
    | none => simp
    | some p =>
      have hstep := bubbleStep_shape_pres leaf idx p
      have hpres : ∃ gn', lookupA (bubbleStep leaf idx p) g = some gn' := by
        have hm := hstep.1 g
        rw [hg] at hm
        cases hx : lookupA (bubbleStep leaf idx p) g
        · rw [hx] at hm
          exact absurd hm (by simp)
        · exact ⟨_, rfl⟩
      obtain ⟨gn', hg'⟩ := hpres
      rw [ih (bubbleStep leaf idx p) p g d gn' hg']
      rw [walkPath_congr idx (bubbleStep leaf idx p) hstep.1 f p]
      rw [bubbleStep_dv leaf idx p g d gn hg]
      rw [countOcc_cons]
      by_cases hld : leaf.device = some d
      · rw [if_pos hld, if_pos hld]
        by_cases hpg : p = g
        · rw [if_pos ⟨hpg, hld⟩, if_pos hpg]
          try omega
        · rw [if_neg (fun hpd => hpg hpd.1), if_neg hpg]
          try omega
      · rw [if_neg hld, if_neg hld, if_neg (fun hpd => hld hpd.2)]
        try omega

end TfHierarchy

namespace TfHierarchy

/-- Cumulative effect of the bubbling fold on container `g`'s device-`d`
count: the sum of the leaves' contributions (measured against any
reference index with the same parent/device structure). -/
theorem bubbleFold_dv (g d : String) (idx₀ : List (String × StatNode)) (gn₀ : StatNode)
    (hg₀ : lookupA idx₀ g = some gn₀) :
    ∀ (leaves : List String) (idx : List (String × StatNode)),
      (∀ m, (lookupA idx m).map statShape = (lookupA idx₀ m).map statShape) →
      idx.length = idx₀.length →
      dv (leaves.foldl
            (fun acc ln =>
              match lookupA acc ln with
              | none => acc
              | some leaf => bubbleWalk leaf acc.length acc ln) idx) g d =
        dv idx g d + (leaves.map (leafDeviceContribution idx₀ idx₀.length g d)).sum := by
  intro leaves
  induction leaves with
  | nil =>
    intro idx hshape hlen
    simp
  | cons ln ls ih =>
    intro idx hshape hlen
    simp only [List.foldl_cons, List.map_cons, List.sum_cons]
    have hgp : ∃ gn, lookupA idx g = some gn := by
      have hm := hshape g
      rw [hg₀] at hm
      cases hx : lookupA idx g
      · rw [hx] at hm
        exact absurd hm (by simp)
      · exact ⟨_, rfl⟩
    obtain ⟨gn, hg⟩ := hgp
    cases hln : lookupA idx ln with
    | none =>
      have hln₀ : lookupA idx₀ ln = none := by
        have hm := hshape ln
        rw [hln] at hm
        cases hx : lookupA idx₀ ln
        · rfl
        · rw [hx] at hm
          exact absurd hm (by simp)
      rw [ih idx hshape hlen]
      have hc : leafDeviceContribution idx₀ idx₀.length g d ln = 0 := by
        unfold leafDeviceContribution
        rw [hln₀]
      rw [hc]
      omega
    | some leaf =>
      have hln₀ : ∃ leaf₀, lookupA idx₀ ln = some leaf₀ ∧ statShape leaf = statShape leaf₀ := by
        have hm := hshape ln
        rw [hln] at hm
        cases hx : lookupA idx₀ ln with
        | none =>
          rw [hx] at hm
          exact absurd hm (by simp)
        | some y =>
          rw [hx] at hm
          refine ⟨y, rfl, ?_⟩
          injection hm
      obtain ⟨leaf₀, hlx, hls⟩ := hln₀
      have hwpres := bubbleWalk_shape_pres leaf idx.length idx ln
      have hshape' : ∀ m, (lookupA (bubbleWalk leaf idx.length idx ln) m).map statShape =
          (lookupA idx₀ m).map statShape :=
        fun m => (hwpres.1 m).trans (hshape m)
      have hlen' : (bubbleWalk leaf idx.length idx ln).length = idx₀.length :=
        hwpres.2.trans hlen
      rw [ih (bubbleWalk leaf idx.length idx ln) hshape' hlen']
      rw [bubbleWalk_dv leaf idx.length idx ln g d gn hg]
      have hcontrib :
          (if leaf.device = some d then countOcc g (walkPath idx idx.length ln) else 0) =
            leafDeviceContribution idx₀ idx₀.length g d ln := by
        unfold leafDeviceContribution
        rw [hlx]
        have hdev : leaf.device = leaf₀.device := congrArg (fun t => t.2.2.1) hls
        rw [hdev, walkPath_congr idx₀ idx hshape, hlen]
      rw [hcontrib]
      omega

theorem resetGroupStats_lookup (idx : List (String × StatNode)) (m : String) :
    lookupA (resetGroupStats idx) m =
      (lookupA idx m).map
        (fun nd => if nd.isGroup then { nd with stats := some 0, deviceHistogram := [] }
          else nd) := by
  unfold resetGroupStats
  exact lookupA_map_val
    (fun nd => if nd.isGroup then { nd with stats := some 0, deviceHistogram := [] } else nd)
    idx m

theorem resetGroupStats_shape (idx : List (String × StatNode)) :
    (∀ m, (lookupA (resetGroupStats idx) m).map statShape = (lookupA idx m).map statShape) ∧
      (resetGroupStats idx).length = idx.length := by
  constructor
  · intro m
    rw [resetGroupStats_lookup]
    cases lookupA idx m with
    | none => rfl
    | some nd =>
      by_cases hnd : nd.isGroup
      · simp [hnd, statShape]
      · simp [hnd]
  · simp [resetGroupStats]

theorem resetGroupStats_dv (idx : List (String × StatNode)) (g d : String) (gn : StatNode)
    (hg : lookupA idx g = some gn) (hgrp : gn.isGroup = true) :
    dv (resetGroupStats idx) g d = 0 := by
  unfold dv
  rw [resetGroupStats_lookup, hg]
  simp [hgrp, histVal, lookupA]

/-- The stats rollup does not change any node's `statShape`, the index
size, or the leaf list. -/
theorem joinStats_shape (h : StatHier) :
    (∀ m, (lookupA (joinAndAggregateStats h).index m).map statShape =
      (lookupA h.index m).map statShape) ∧
    (joinAndAggregateStats h).index.length = h.index.length ∧
    (joinAndAggregateStats h).leaves = h.leaves := by
  have hfold : ∀ (leaves : List String) (idx : List (String × StatNode)),
      (∀ m, (lookupA (leaves.foldl
          (fun acc ln =>
            match lookupA acc ln with
            | none => acc
            | some leaf => bubbleWalk leaf acc.length acc ln) idx) m).map statShape =
        (lookupA idx m).map statShape) ∧
      (leaves.foldl
          (fun acc ln =>
            match lookupA acc ln with
            | none => acc
            | some leaf => bubbleWalk leaf acc.length acc ln) idx).length = idx.length := by
    intro leaves
    induction leaves with
    | nil => intro idx; exact ⟨fun m => rfl, rfl⟩
    | cons ln ls ih =>
      intro idx
      simp only [List.foldl_cons]
      cases hln : lookupA idx ln with
      | none => exact ih idx
      | some leaf =>
        have hw := bubbleWalk_shape_pres leaf idx.length idx ln
        have hi := ih (bubbleWalk leaf idx.length idx ln)
        exact ⟨fun m => (hi.1 m).trans (hw.1 m), hi.2.trans hw.2⟩
  have hreset := resetGroupStats_shape h.index
  refine ⟨?_, ?_, rfl⟩
  · intro m
    exact ((hfold h.leaves (resetGroupStats h.index)).1 m).trans (hreset.1 m)
  · exact ((hfold h.leaves (resetGroupStats h.index)).2).trans hreset.2

/-- After one rollup, a container's device histogram holds exactly the
per-leaf sums. -/
theorem joinStats_rollup_aux (h : StatHier) (g d : String) (gn : StatNode)
    (hg : lookupA h.index g = some gn) (hgrp : gn.isGroup = true) :
    ∀ gn', lookupA (joinAndAggregateStats h).index g = some gn' →
      histVal gn'.deviceHistogram d = deviceRollup h g d := by
  intro gn' h1
  have hreset := resetGroupStats_shape h.index
  have hfold := bubbleFold_dv g d h.index gn hg h.leaves (resetGroupStats h.index)
    hreset.1 hreset.2
  have hzero := resetGroupStats_dv h.index g d gn hg hgrp
  have hdv : dv (joinAndAggregateStats h).index g d = deviceRollup h g d := by
    show dv (h.leaves.foldl
        (fun acc ln =>
          match lookupA acc ln with
          | none => acc
          | some leaf => bubbleWalk leaf acc.length acc ln)
        (resetGroupStats h.index)) g d = deviceRollup h g d
    rw [hfold, hzero]
    unfold deviceRollup
    omega
  rw [← hdv]
  unfold dv
  rw [h1]
  rfl

/-- Per-leaf contributions only depend on the `statShape` structure. -/
theorem deviceRollup_pres (h : StatHier) (g d : String) :
    deviceRollup (joinAndAggregateStats h) g d = deviceRollup h g d := by
  have hs := joinStats_shape h
  unfold deviceRollup
  rw [hs.2.1, hs.2.2]
  have hpt : leafDeviceContribution (joinAndAggregateStats h).index h.index.length g d =
      leafDeviceContribution h.index h.index.length g d := by
    funext ln
    have hm := hs.1 ln
    cases hx : lookupA (joinAndAggregateStats h).index ln with
    | none =>
      rw [hx] at hm
      cases hy : lookupA h.index ln with
      | none =>
        have e1 : leafDeviceContribution (joinAndAggregateStats h).index h.index.length g d ln
            = 0 := by
          unfold leafDeviceContribution
          rw [hx]
        have e2 : leafDeviceContribution h.index h.index.length g d ln = 0 := by
          unfold leafDeviceContribution
          rw [hy]
        rw [e1, e2]
      | some y =>
        rw [hy] at hm
        exact absurd hm (by simp)
    | some x =>
      rw [hx] at hm
      cases hy : lookupA h.index ln with
      | none =>
        rw [hy] at hm
        exact absurd hm (by simp)
      | some y =>
        rw [hy] at hm
        have hsxy : statShape x = statShape y := by injection hm
        have hdev : x.device = y.device := congrArg (fun t => t.2.2.1) hsxy
        have e1 : leafDeviceContribution (joinAndAggregateStats h).index h.index.length g d ln
            = (if x.device = some d then
                countOcc g (walkPath (joinAndAggregateStats h).index h.index.length ln)
              else 0) := by
          unfold leafDeviceContribution
          rw [hx]
        have e2 : leafDeviceContribution h.index h.index.length g d ln
            = (if y.device = some d then countOcc g (walkPath h.index h.index.length ln)
              else 0) := by
          unfold leafDeviceContribution
          rw [hy]
        rw [e1, e2, hdev, walkPath_congr h.index (joinAndAggregateStats h).index hs.1]
  rw [hpt]

/-- C3 (amended): the rollup leaves, in every container's device
histogram, exactly the per-leaf sums (one count per visit of the
container on a leaf's ancestor walk, for leaves on that device), and a
second invocation changes no device histogram.  (Device histograms are
reset and re-derived; xla-cluster histograms are not reset and
accumulate — see `joinStats_second_invocation_changes_xla`.) -/
theorem joinStats_device_rollup_correct (h : StatHier) (g d : String) (gn gn' : StatNode)
    (hg : lookupA h.index g = some gn) (hgrp : gn.isGroup = true)
    (h1 : lookupA (joinAndAggregateStats h).index g = some gn') :
    histVal gn'.deviceHistogram d = deviceRollup h g d ∧
    (∀ gn₂, lookupA (joinAndAggregateStats (joinAndAggregateStats h)).index g = some gn₂ →
      histVal gn₂.deviceHistogram d = histVal gn'.deviceHistogram d) := by
  have hpart1 := joinStats_rollup_aux h g d gn hg hgrp gn' h1
  refine ⟨hpart1, fun gn₂ h2 => ?_⟩
  have hs := joinStats_shape h
  have hgrp' : gn'.isGroup = true := by
    have hm := hs.1 g
    rw [h1, hg] at hm
    have hsxy : statShape gn' = statShape gn := by injection hm
    have hone : gn'.isGroup = gn.isGroup := congrArg (fun t => t.1) hsxy
    rw [hone, hgrp]
  have hpart2 := joinStats_rollup_aux (joinAndAggregateStats h) g d gn' h1 hgrp' gn₂ h2
  rw [hpart2, deviceRollup_pres h g d, hpart1]

end TfHierarchy

namespace TfHierarchy

/-- The root's record after one rollup of `c3State`. -/
def c3RootAfter1 : StatNode :=
  (lookupA (joinAndAggregateStats c3State).index "__root__").getD { isGroup := false }

/-- The root's record after two rollups of `c3State`. -/
def c3RootAfter2 : StatNode :=
  (lookupA (joinAndAggregateStats (joinAndAggregateStats c3State)).index "__root__").getD
    { isGroup := false }

/-- Witness for C3 (amended) at `c3State`: the root's device histogram
equals the per-leaf rollup after one invocation and is unchanged by a
second one. -/
theorem joinStats_device_rollup_correct_witness :
    histVal c3RootAfter1.deviceHistogram "gpu0" = deviceRollup c3State "__root__" "gpu0" ∧
      histVal c3RootAfter2.deviceHistogram "gpu0" =
        histVal c3RootAfter1.deviceHistogram "gpu0" := by
  obtain ⟨h1, h2⟩ := joinStats_device_rollup_correct c3State "__root__" "gpu0"
    { isGroup := true } c3RootAfter1 (by rfl) rfl (by rfl)
  exact ⟨h1, h2 c3RootAfter2 (by rfl)⟩

end TfHierarchy

namespace TfHierarchy

/-! ## The Series Detector (`groupSeries` and
`detectSeriesUsingNumericSuffixes`, hierarchy.ts 839-1091, 1274-1305)

`SNode` embeds the slice of a node that series detection reads/writes:
its type tag, `op`, parent, `owningSeries` stamp, device/cluster and
compatibility data (embeddings are represented by their compatibility
flags, the only attribute this code reads), and — for series nodes —
the SeriesNode attributes of the spec's entity model (prefix/suffix
written `pfx`/`sfx`, parent path, ids, and the member-name set of the
series' own metagraph).  `SState` carries the hierarchy index (arena),
the metagraph node membership of each container, and the two
caller-visible maps (`seriesNames`, and the series-override map, source
parameter `map`, here `smap`). -/

inductive NType
  | META
  | OP
  | SERIES
deriving DecidableEq, Repr

/-- Modelled from the spec: `tf_graph.SeriesGroupingType` (graph.ts),
the caller-supplied per-series override ("group" / "ungrouped"). -/
inductive SeriesGroupingType
  | GROUP
  | UNGROUP
deriving DecidableEq, Repr

structure SNode where
  ntype : NType
  op : String := ""
  parentName : Option String := none
  owningSeries : Option String := none
  device : Option String := none
  xlaCluster : Option String := none
  compatible : Bool := true
  cardinality : Nat := 0
  inEmbeddings : List Bool := []
  outEmbeddings : List Bool := []
  deviceHistogram : List (String × Nat) := []
  xlaClusterHistogram : List (String × Nat) := []
  compatibilityHistogram : Nat × Nat := (0, 0)
  pfx : String := ""
  sfx : String := ""
  parentPath : String := ""
  ids : List Nat := []
  members : List String := []
deriving DecidableEq, Repr

/-- A candidate/series record (`createSeriesNode`'s result as consumed
by the numeric-suffix detector; for a candidate, `name` is the member's
own name and `clusterId` its parsed numeric id). -/
structure SeriesRec where
  name : String
  pfx : String
  sfx : String
  parentPath : String
  clusterId : Nat
  ids : List Nat := []
  members : List String := []
deriving DecidableEq, Repr

structure SState where
  arena : List (String × SNode)
  childrenOf : List (String × List String)
  seriesNames : List (String × String) := []
  smap : List (String × SeriesGroupingType) := []
deriving DecidableEq, Repr

/-- `name.split('/')` on the character list (structural, so that
concrete runs evaluate in the kernel). -/
def splitSlash : List Char → List (List Char)
  | [] => [[]]
  | c :: t =>
    if c = '/' then [] :: splitSlash t
    else
      match splitSlash t with
      | [] => [[c]]
      | h :: r => (c :: h) :: r

def splitOnSlash (s : String) : List String := (splitSlash s.data).map (fun l => String.mk l)

/-- `array.join('/')`. -/
def joinSlash : List String → String
  | [] => ""
  | [x] => x
  | x :: t => x ++ "/" ++ joinSlash t

def digitsToNat (ds : List Char) : Nat :=
  ds.foldl (fun a c => a * 10 + (c.toNat - 48)) 0

/-- The regex `^(\D*)_(\d+)$` of `detectSeriesUsingNumericSuffixes`
(hierarchy.ts 1022): a match needs a non-empty trailing digit run,
preceded by an underscore, with no digit anywhere before it (`\D*`);
returns the prefix (group 1) and the numeric id (group 2). -/
def parseSuffix (leaf : String) : Option (String × Nat) :=
  let rcs := leaf.data.reverse
  let ds := (rcs.takeWhile (fun c => c.isDigit)).reverse
  if ds.isEmpty then none
  else
    match rcs.dropWhile (fun c => c.isDigit) with
    | '_' :: restRev =>
      if restRev.any (fun c => c.isDigit) then none
      else some (String.mk restRev.reverse, digitsToNat ds)
    | _ => none

/-- `name.charAt(name.length - 1) === '*'`. -/
def endsWithStar (name : String) : Bool :=
  match name.data.getLast? with
  | some c => c == '*'
  | none => false

/-- Modelled from the spec: `getSeriesNodeName` (graph.ts) — the series
name is formed from `(prefix, suffix, parent-path, firstId, lastId)`:
the parent path, a slash, the prefix, the id range (or `#` for a
candidate key without ids), and the suffix. -/
def getSeriesNodeName (pfx sfx parentPath : String) (ids : Option (Nat × Nat)) : String :=
  let numRep :=
    match ids with
    | some se => "[" ++ toString se.1 ++ "-" ++ toString se.2 ++ "]"
    | none => "#"
  let pat := pfx ++ numRep ++ sfx
  (if parentPath = "" then "" else parentPath ++ "/") ++ pat

/-- Modelled from the spec: `createSeriesNode` (graph.ts) — a fresh
SeriesNode record with the given prefix, suffix, parent path, numeric
id (`clusterId`) and name, with empty ids and an empty metagraph. -/
def createSeriesNode (pfx sfx parentPath : String) (clusterId : Nat) (name : String) :
    SeriesRec :=
  { name := name, pfx := pfx, sfx := sfx, parentPath := parentPath, clusterId := clusterId }

/-- The per-member candidate extraction of
`detectSeriesUsingNumericSuffixes` (hierarchy.ts 1017-1047): split off
the leaf name and parent path, parse the `_<digits>` suffix (members
without one become zero-th items, with `*` stripped into the suffix for
group names). -/
def seriesCandidate (name : String) : SeriesRec :=
  let isGroup := endsWithStar name
  let namepath := splitOnSlash name
  let leaf := (namepath.getLast?).getD ""
  let parentPath := joinSlash namepath.dropLast
  match parseSuffix leaf with
  | some pid => createSeriesNode pid.1 "" parentPath pid.2 name
  | none =>
    let pre := if isGroup then String.mk leaf.data.dropLast else leaf
    let sfx := if isGroup then "*" else ""
    createSeriesNode pre sfx parentPath 0 name

/-- `clusterNodes` (hierarchy.ts 951-981): bucket the container's
direct children by `op`, skipping metanodes and children with a falsy
(empty) op. -/
def clusterNodes (children : List String) (arena : List (String × SNode)) :
    List (String × List String) :=
  children.foldl
    (fun clusters n =>
      match lookupA arena n with
      | none => clusters
      | some child =>
        if child.ntype = NType.META then clusters
        else if child.op = "" then clusters
        else pushAssoc clusters child.op n)
    []

/-- Stable insertion (equal ids keep their original relative order),
matching the stable JS `sort((a, b) => +a.clusterId - +b.clusterId)`. -/
def insertByClusterId (x : SeriesRec) : List SeriesRec → List SeriesRec
  | [] => [x]
  | y :: t => if y.clusterId < x.clusterId then y :: insertByClusterId x t else x :: y :: t

def sortByClusterId (l : List SeriesRec) : List SeriesRec := l.foldr insertByClusterId []

/-- `addSeriesToDict` (hierarchy.ts 1274-1305): a run of length ≥ 2
becomes one series node named from the run's first/last ids, holding
every run member's id and name.  (The source also passes the op
cluster's key coerced with `+` — `NaN` for non-numeric ops — as the
node's `clusterId`; that field of the created node is never read
afterwards and is embedded as 0.) -/
def addSeriesToDict (seriesNodes : List SeriesRec)
    (seriesDict : List (String × SeriesRec)) : List (String × SeriesRec) :=
  if seriesNodes.length > 1 then
    let first := seriesNodes.headD (createSeriesNode "" "" "" 0 "")
    let lastN := seriesNodes.getLastD (createSeriesNode "" "" "" 0 "")
    let curSeriesName := getSeriesNodeName first.pfx first.sfx first.parentPath
      (some (first.clusterId, lastN.clusterId))
    let curSeriesNode :=
      { createSeriesNode first.pfx first.sfx first.parentPath 0 curSeriesName with
        ids := seriesNodes.map (fun nd => nd.clusterId),
        members := seriesNodes.map (fun nd => nd.name) }
    updateA seriesDict curSeriesName curSeriesNode
  else seriesDict

/-- The contiguous-run walk over one sorted candidate group
(hierarchy.ts 1062-1087): extend the run while the next id is exactly
one greater, otherwise flush the run and restart. -/
def runMergeAux (seriesDict : List (String × SeriesRec)) (run : List SeriesRec) :
    List SeriesRec → List (String × SeriesRec)
  | [] => addSeriesToDict run seriesDict
  | nxt :: rest =>
    if nxt.clusterId = (run.getLastD (createSeriesNode "" "" "" 0 "")).clusterId + 1 then
      runMergeAux seriesDict (run ++ [nxt]) rest
    else runMergeAux (addSeriesToDict run seriesDict) [nxt] rest

/-- One op cluster's contribution to the series dictionary
(hierarchy.ts 1003-1089). -/
def detectClusterSeries (seriesDict : List (String × SeriesRec)) (members : List String) :
    List (String × SeriesRec) :=
  if members.length ≤ 1 then seriesDict
  else
    let candidatesDict := members.foldl
      (fun cd name =>
        let cand := seriesCandidate name
        let key := getSeriesNodeName cand.pfx cand.sfx cand.parentPath none
        pushAssoc cd key cand)
      []
    candidatesDict.foldl
      (fun d entry =>
        if entry.2.length < 2 then d
        else
          match sortByClusterId entry.2 with
          | [] => d
          | a :: rest => runMergeAux d [a] rest)
      seriesDict

/-- `detectSeriesUsingNumericSuffixes` (hierarchy.ts 991-1091). -/
def detectSeriesUsingNumericSuffixes (clusters : List (String × List String)) :
    List (String × SeriesRec) :=
  clusters.foldl (fun dict cl => detectClusterSeries dict cl.2) []

end TfHierarchy

namespace TfHierarchy

/-- Compatibility-count accumulation (the
`compatibilityHistogram.compatible/incompatible` increments). -/
def addCompatCounts (c : Nat × Nat) (compatible : Bool) : Nat × Nat :=
  if compatible then (c.1 + 1, c.2) else (c.1, c.2 + 1)

/-- The SNode stored in the hierarchy index for an accepted series. -/
def seriesRecToSNode (sn : SeriesRec) : SNode :=
  { ntype := NType.SERIES, pfx := sn.pfx, sfx := sn.sfx, parentPath := sn.parentPath,
    ids := sn.ids, members := sn.members }

/-- The per-member body of the splice loop (hierarchy.ts 899-943): add
the member to the series' metagraph, aggregate its cardinality,
device/cluster and compatibility counts onto the series node, repoint
the member's parent to the series, record it in `seriesNames`, and
remove it from the container's metagraph. -/
def spliceMember (mname seriesName : String) (st : SState) (n : String) : SState :=
  match lookupA st.arena n with
  | none => st
  | some child =>
    let st₁ :=
      match lookupA st.arena seriesName with
      | none => st
      | some s =>
        let s₁ := { s with
          members := if s.members.contains n then s.members else s.members ++ [n],
          parentName := child.parentName,
          cardinality := s.cardinality + 1,
          deviceHistogram :=
            (match child.device with
             | some dd => bumpHist s.deviceHistogram dd
             | none => s.deviceHistogram),
          xlaClusterHistogram :=
            (match child.xlaCluster with
             | some x => bumpHist s.xlaClusterHistogram x
             | none => s.xlaClusterHistogram),
          compatibilityHistogram :=
            child.outEmbeddings.foldl addCompatCounts
              (child.inEmbeddings.foldl addCompatCounts
                (addCompatCounts s.compatibilityHistogram child.compatible)) }
        { st with arena := updateA st.arena seriesName s₁ }
    let st₂ :=
      { st₁ with arena := updateA st₁.arena n { child with parentName := some seriesName } }
    let st₃ := { st₂ with seriesNames := updateA st₂.seriesNames n seriesName }
    let newChildren := ((lookupA st₃.childrenOf mname).getD []).filter (fun x => decide (x ≠ n))
    { st₃ with childrenOf := updateA st₃.childrenOf mname newChildren }

/-- The owningSeries stamping of one member (hierarchy.ts 878-883):
`if (!child.owningSeries) child.owningSeries = seriesName`. -/
def stampStep (seriesName : String) (s : SState) (n : String) : SState :=
  match lookupA s.arena n with
  | none => s
  | some child =>
    match child.owningSeries with
    | some _ => s
    | none =>
      { s with arena := updateA s.arena n { child with owningSeries := some seriesName } }

/-- The per-series body of `groupSeries`'s `_.each(seriesDict, ...)`
(hierarchy.ts 876-944): stamp each member's `owningSeries` (if not
already owned), mark a series smaller than the threshold as UNGROUP in
the override map unless the map already has an entry for it, skip the
splice entirely when the map marks the series UNGROUP, and otherwise
add the series to the index and the container's metagraph and splice
every member into it. -/
def processSeries (mname : String) (threshold : Nat) (st : SState)
    (seriesName : String) (sn : SeriesRec) : SState :=
  let memberNames := sn.members
  let st₁ := memberNames.foldl (stampStep seriesName) st
  let st₂ :=
    if memberNames.length < threshold ∧ (lookupA st₁.smap sn.name).isNone then
      { st₁ with smap := updateA st₁.smap sn.name SeriesGroupingType.UNGROUP }
    else st₁
  if lookupA st₂.smap sn.name = some SeriesGroupingType.UNGROUP then st₂
  else
    let withSeries := ((lookupA st₂.childrenOf mname).getD []) ++ [seriesName]
    let st₃ := { st₂ with
      arena := updateA st₂.arena seriesName (seriesRecToSNode sn),
      childrenOf := updateA st₂.childrenOf mname withSeries }
    memberNames.foldl (spliceMember mname seriesName) st₃

/-- `groupSeries` (hierarchy.ts 839-945), numeric-suffix policy, with
fuel bounding the recursion into child metanodes (the source recursion
is bounded by the containment-tree depth): recurse into metanode
children first, cluster the container's children by op, detect series,
and process each detected series. -/
def groupSeriesF : Nat → String → SState → Nat → SState
  | 0, _, st, _ => st
  | fuel + 1, mname, st, threshold =>
    let childNames := (lookupA st.childrenOf mname).getD []
    let st₁ := childNames.foldl
      (fun acc n =>
        match lookupA acc.arena n with
        | some child =>
          if child.ntype = NType.META then groupSeriesF fuel n acc threshold else acc
        | none => acc)
      st
    let clusters := clusterNodes ((lookupA st₁.childrenOf mname).getD []) st₁.arena
    let seriesDict := detectSeriesUsingNumericSuffixes clusters
    seriesDict.foldl (fun acc entry => processSeries mname threshold acc entry.1 entry.2) st₁

/-- The root node's reserved name (`ROOT_NAME`, graph.ts — modelled
from the spec: the root's name is a reserved sentinel). -/
def ROOT_NAME : String := "__root__"

/-- The hierarchy build parameters (hierarchy.ts 442-455; `seriesMap`
is carried by `SState.smap`). -/
structure HierarchyParams where
  verifyTemplate : Bool := true
  seriesNodeMinSize : Int := 5
  rankDirection : String := "BT"
  useGeneralizedSeriesPatterns : Bool := false
deriving DecidableEq, Repr

/-- The "Detect series" phase of `build` (hierarchy.ts 499-518):
`groupSeries` runs only when `params.seriesNodeMinSize > 0`. -/
def detectSeriesPhase (params : HierarchyParams) (fuel : Nat) (st : SState) : SState :=
  if params.seriesNodeMinSize > 0 then
    groupSeriesF fuel ROOT_NAME st params.seriesNodeMinSize.toNat
  else st

end TfHierarchy

namespace TfHierarchy

/-! ### C10 — `build` skips series detection for non-positive thresholds -/

/-- C10: when `seriesNodeMinSize ≤ 0`, the "Detect series" phase of
`build` does not call `groupSeries` at all, so the hierarchy state —
every node, every parent pointer, the container memberships, and the
caller-supplied series map — is returned unchanged and no series node
is created. -/
theorem build_skips_series_detection (params : HierarchyParams) (fuel : Nat) (st : SState)
    (hmin : params.seriesNodeMinSize ≤ 0) :
    detectSeriesPhase params fuel st = st := by
  unfold detectSeriesPhase
  rw [if_neg (by omega)]

/-- Concrete hierarchy for the series witnesses: three `Add` ops with
consecutive numeric suffixes under the root. -/
def c4StateA : SState :=
  { arena := [("__root__", { ntype := NType.META }),
              ("foo_1", { ntype := NType.OP, op := "Add", parentName := some "__root__" }),
              ("foo_2", { ntype := NType.OP, op := "Add", parentName := some "__root__" }),
              ("foo_3", { ntype := NType.OP, op := "Add", parentName := some "__root__" })],
    childrenOf := [("__root__", ["foo_1", "foo_2", "foo_3"])] }

/-- The same hierarchy with a gap in the ids (`foo_3` replaced by
`foo_4`). -/
def c4StateB : SState :=
  { arena := [("__root__", { ntype := NType.META }),
              ("foo_1", { ntype := NType.OP, op := "Add", parentName := some "__root__" }),
              ("foo_2", { ntype := NType.OP, op := "Add", parentName := some "__root__" }),
              ("foo_4", { ntype := NType.OP, op := "Add", parentName := some "__root__" })],
    childrenOf := [("__root__", ["foo_1", "foo_2", "foo_4"])] }

/-- Witness for C10: with the threshold at 0 the series phase returns
the hierarchy unchanged. -/
theorem build_skips_series_detection_witness :
    detectSeriesPhase { seriesNodeMinSize := 0 } 5 c4StateA = c4StateA :=
  build_skips_series_detection { seriesNodeMinSize := 0 } 5 c4StateA (by decide)

/-! ### C4 — numeric-suffix series runs on concrete inputs -/

/-- C4: under the numeric-suffix policy with any minimum-size threshold
at most 3, members `foo_1, foo_2, foo_3` of one op cluster produce
exactly one detected series, `foo[1-3]`, covering ids 1–3, and
`groupSeries` splices it in: the members' parent pointers move to the
series node and the root's children reduce to the series node alone.
Members `foo_1, foo_2, foo_4` produce exactly one series, `foo[1-2]`,
covering ids 1–2 — the gap at 3 starts a new run and the singleton run
`foo_4` forms no series — while `foo_4` remains a standalone direct
child of the root with its parent pointer unchanged and no
`owningSeries` stamp. -/
theorem numeric_suffix_series_runs (t : Nat) (ht : t ≤ 3) :
    ((detectSeriesUsingNumericSuffixes
        (clusterNodes ["foo_1", "foo_2", "foo_3"] c4StateA.arena)).map Prod.fst =
      ["foo[1-3]"] ∧
     (lookupA (detectSeriesUsingNumericSuffixes
        (clusterNodes ["foo_1", "foo_2", "foo_3"] c4StateA.arena)) "foo[1-3]").map
        (fun s => (s.ids, s.members)) = some ([1, 2, 3], ["foo_1", "foo_2", "foo_3"]) ∧
     lookupA (groupSeriesF 2 "__root__" c4StateA t).childrenOf "__root__" =
       some ["foo[1-3]"] ∧
     (lookupA (groupSeriesF 2 "__root__" c4StateA t).arena "foo_1").map
       (fun nd => nd.parentName) = some (some "foo[1-3]") ∧
     (lookupA (groupSeriesF 2 "__root__" c4StateA t).arena "foo_2").map
       (fun nd => nd.parentName) = some (some "foo[1-3]") ∧
     (lookupA (groupSeriesF 2 "__root__" c4StateA t).arena "foo_3").map
       (fun nd => nd.parentName) = some (some "foo[1-3]")) ∧
    ((detectSeriesUsingNumericSuffixes
        (clusterNodes ["foo_1", "foo_2", "foo_4"] c4StateB.arena)).map Prod.fst =
      ["foo[1-2]"] ∧
     (lookupA (detectSeriesUsingNumericSuffixes
        (clusterNodes ["foo_1", "foo_2", "foo_4"] c4StateB.arena)) "foo[1-2]").map
        (fun s => (s.ids, s.members)) = some ([1, 2], ["foo_1", "foo_2"]) ∧
     (lookupA (groupSeriesF 2 "__root__" c4StateB t).arena "foo_4").map
       (fun nd => (nd.parentName, nd.owningSeries)) = some (some "__root__", none) ∧
     "foo_4" ∈ (lookupA (groupSeriesF 2 "__root__" c4StateB t).childrenOf "__root__").getD []) := by
  interval_cases t <;> exact (by decide)

/-- Witness for C4 at the threshold 3 (the largest covered by the
claim). -/
theorem numeric_suffix_series_runs_witness :
    lookupA (groupSeriesF 2 "__root__" c4StateA 3).childrenOf "__root__" =
        some ["foo[1-3]"] ∧
      "foo_4" ∈ (lookupA (groupSeriesF 2 "__root__" c4StateB 3).childrenOf "__root__").getD [] :=
  ⟨((numeric_suffix_series_runs 3 (by decide)).1).2.2.1,
   ((numeric_suffix_series_runs 3 (by decide)).2).2.2.2⟩

end TfHierarchy

namespace TfHierarchy

/-! ### C5 — the size/override policy of the series splice -/

theorem stampStep_effects (seriesName : String) (s : SState) (n : String) :
    (stampStep seriesName s n).smap = s.smap ∧
    (stampStep seriesName s n).childrenOf = s.childrenOf ∧
    (stampStep seriesName s n).seriesNames = s.seriesNames ∧
    (∀ m, (lookupA (stampStep seriesName s n).arena m).map (fun nd => nd.parentName) =
      (lookupA s.arena m).map (fun nd => nd.parentName)) ∧
    (∀ m, (lookupA (stampStep seriesName s n).arena m).isSome =
      (lookupA s.arena m).isSome) ∧
    (∀ m x, (lookupA s.arena m).map (fun nd => nd.owningSeries) = some (some x) →
      (lookupA (stampStep seriesName s n).arena m).map (fun nd => nd.owningSeries) =
        some (some x)) ∧
    (∀ child, lookupA s.arena n = some child → child.owningSeries = none →
      (lookupA (stampStep seriesName s n).arena n).map (fun nd => nd.owningSeries) =
        some (some seriesName)) := by
  cases hn : lookupA s.arena n with
  | none =>
    have he : stampStep seriesName s n = s := by simp only [stampStep, hn]
    rw [he]
    exact ⟨rfl, rfl, rfl, fun m => rfl, fun m => rfl, fun m x hx => hx,
      fun child hc hcn => absurd (hn ▸ hc : (none : Option SNode) = some child) (by simp)⟩
  | some child =>
    cases hos : child.owningSeries with
    | some x =>
      have he : stampStep seriesName s n = s := by simp only [stampStep, hn, hos]
      rw [he]
      refine ⟨rfl, rfl, rfl, fun m => rfl, fun m => rfl, fun m y hy => hy,
        fun child' hc hcn => ?_⟩
      injection hc with hcc
      subst hcc
      rw [hos] at hcn
      exact absurd hcn (by simp)
    | none =>
      have he : stampStep seriesName s n =
          { s with arena := updateA s.arena n { child with owningSeries := some seriesName } } := by
        simp only [stampStep, hn, hos]
      rw [he]
      refine ⟨rfl, rfl, rfl, fun m => ?_, fun m => ?_, fun m x hx => ?_,
        fun child' hc hcn => ?_⟩
      · by_cases hm : m = n
        · subst hm
          simp [lookupA_updateA_self, hn]
        · simp [lookupA_updateA_other _ _ _ _ hm]
      · by_cases hm : m = n
        · subst hm
          simp [lookupA_updateA_self, hn]
        · simp [lookupA_updateA_other _ _ _ _ hm]
      · by_cases hm : m = n
        · subst hm
          rw [hn] at hx
          simp only [Option.map_some', Option.some.injEq] at hx
          rw [hos] at hx
          exact absurd hx (by simp)
        · rw [lookupA_updateA_other _ _ _ _ hm]
          exact hx
      · simp [lookupA_updateA_self]

theorem stampFold_effects (seriesName : String) :
    ∀ (ms : List String) (s : SState),
      (ms.foldl (stampStep seriesName) s).smap = s.smap ∧
      (ms.foldl (stampStep seriesName) s).childrenOf = s.childrenOf ∧
      (ms.foldl (stampStep seriesName) s).seriesNames = s.seriesNames ∧
      (∀ m, (lookupA (ms.foldl (stampStep seriesName) s).arena m).map
          (fun nd => nd.parentName) = (lookupA s.arena m).map (fun nd => nd.parentName)) ∧
      (∀ m, (lookupA (ms.foldl (stampStep seriesName) s).arena m).isSome =
        (lookupA s.arena m).isSome) ∧
      (∀ m x, (lookupA s.arena m).map (fun nd => nd.owningSeries) = some (some x) →
        (lookupA (ms.foldl (stampStep seriesName) s).arena m).map
          (fun nd => nd.owningSeries) = some (some x)) ∧
      (∀ n ∈ ms, ∀ child, lookupA s.arena n = some child → child.owningSeries = none →
        (lookupA (ms.foldl (stampStep seriesName) s).arena n).map
          (fun nd => nd.owningSeries) = some (some seriesName)) := by
  intro ms
  induction ms with
  | nil =>
    intro s
    refine ⟨rfl, rfl, rfl, fun m => rfl, fun m => rfl, fun m x hx => hx, fun n hn => ?_⟩
    exact absurd hn (by simp)
  | cons m ms ih =>
    intro s
    simp only [List.foldl_cons]
    have hstep := stampStep_effects seriesName s m
    have hfold := ih (stampStep seriesName s m)
    refine ⟨hfold.1.trans hstep.1, hfold.2.1.trans hstep.2.1, hfold.2.2.1.trans hstep.2.2.1,
      fun q => (hfold.2.2.2.1 q).trans (hstep.2.2.2.1 q),
      fun q => (hfold.2.2.2.2.1 q).trans (hstep.2.2.2.2.1 q),
      fun q x hx => hfold.2.2.2.2.2.1 q x (hstep.2.2.2.2.2.1 q x hx),
      fun n hn child hc hcn => ?_⟩
    rcases List.mem_cons.mp hn with hn | hn
    · subst hn
      have h1 := hstep.2.2.2.2.2.2 child hc hcn
      cases hx : lookupA (stampStep seriesName s n).arena n with
      | none => rw [hx] at h1; exact absurd h1 (by simp)
      | some nd =>
        rw [hx] at h1
        simp only [Option.map_some', Option.some.injEq] at h1
        exact hfold.2.2.2.2.2.1 n seriesName (by rw [hx]; simp [h1])
    · by_cases hcm : (lookupA (stampStep seriesName s m).arena n) = lookupA s.arena n
      · exact hfold.2.2.2.2.2.2 n hn child (by rw [hcm]; exact hc) hcn
      · -- n's entry was changed by the step on m: only possible when n = m and it was stamped
        cases hx : lookupA (stampStep seriesName s m).arena n with
        | none =>
          have := hstep.2.2.2.2.1 n
          rw [hx, hc] at this
          exact absurd this (by simp)
        | some nd =>
          by_cases hmn : n = m
          · subst hmn
            have h1 := hstep.2.2.2.2.2.2 child hc hcn
            rw [hx] at h1
            simp only [Option.map_some', Option.some.injEq] at h1
            exact hfold.2.2.2.2.2.1 n seriesName (by rw [hx]; simp [h1])
          · exfalso
            apply hcm
            cases hq : lookupA s.arena m with
            | none =>
              have he : stampStep seriesName s m = s := by simp only [stampStep, hq]
              rw [he]
            | some ch =>
              cases hqo : ch.owningSeries with
              | some y =>
                have he : stampStep seriesName s m = s := by
                  simp only [stampStep, hq, hqo]
                rw [he]
              | none =>
                have he : stampStep seriesName s m =
                    { s with arena :=
                        updateA s.arena m { ch with owningSeries := some seriesName } } := by
                  simp only [stampStep, hq, hqo]
                rw [he]
                exact lookupA_updateA_other _ _ _ _ hmn

/-- Per-member effects of the splice loop body (hierarchy.ts 899-943),
for a member distinct from the series name: the override map is
untouched, presence of every arena entry is preserved, arena entries
other than the member and the series node are unchanged, the
container's child list only loses entries and never loses the series
node, other child lists and other `seriesNames` entries are unchanged,
a member present in the arena is repointed to the series, dropped from
the container's child list and recorded in `seriesNames`, and the
series node's member list only grows. -/
theorem spliceMember_effects (mname seriesName : String) (st : SState) (n : String)
    (hns : n ≠ seriesName) :
    (spliceMember mname seriesName st n).smap = st.smap ∧
    (∀ m, (lookupA (spliceMember mname seriesName st n).arena m).isSome =
      (lookupA st.arena m).isSome) ∧
    (∀ m, m ≠ n → m ≠ seriesName →
      lookupA (spliceMember mname seriesName st n).arena m = lookupA st.arena m) ∧
    (∀ x, x ∈ (lookupA (spliceMember mname seriesName st n).childrenOf mname).getD [] →
      x ∈ (lookupA st.childrenOf mname).getD []) ∧
    (seriesName ∈ (lookupA st.childrenOf mname).getD [] →
      seriesName ∈ (lookupA (spliceMember mname seriesName st n).childrenOf mname).getD []) ∧
    (∀ k, k ≠ mname →
      lookupA (spliceMember mname seriesName st n).childrenOf k = lookupA st.childrenOf k) ∧
    (∀ m, m ≠ n →
      lookupA (spliceMember mname seriesName st n).seriesNames m = lookupA st.seriesNames m) ∧
    ((lookupA st.arena n).isSome →
      (lookupA (spliceMember mname seriesName st n).arena n).map (fun nd => nd.parentName) =
          some (some seriesName) ∧
      n ∉ (lookupA (spliceMember mname seriesName st n).childrenOf mname).getD [] ∧
      lookupA (spliceMember mname seriesName st n).seriesNames n = some seriesName) ∧
    (∀ x snode, lookupA st.arena seriesName = some snode → x ∈ snode.members →
      ∃ snode', lookupA (spliceMember mname seriesName st n).arena seriesName = some snode' ∧
        x ∈ snode'.members) := by
  cases hn : lookupA st.arena n with
  | none =>
    have he : spliceMember mname seriesName st n = st := by simp only [spliceMember, hn]
    rw [he]
    refine ⟨rfl, fun m => rfl, fun m _ _ => rfl, fun x hx => hx, fun h => h, fun k _ => rfl,
      fun m _ => rfl, fun hp => ?_, fun x snode hsn hx => ⟨snode, hsn, hx⟩⟩
    exact absurd hp (by simp)
  | some child =>
    cases hs : lookupA st.arena seriesName with
    | none =>
      refine ⟨?_, ?_, ?_, ?_, ?_, ?_, ?_, ?_, ?_⟩
      · simp only [spliceMember, hn, hs]
      · intro m
        by_cases hm : m = n
        · subst hm
          simp only [spliceMember, hn, hs, lookupA_updateA_self, Option.isSome_some]
        · simp only [spliceMember, hn, hs, lookupA_updateA_other _ _ _ _ hm]
      · intro m hm1 _
        simp only [spliceMember, hn, hs, lookupA_updateA_other _ _ _ _ hm1]
      · intro x hx
        simp only [spliceMember, hn, hs, lookupA_updateA_self, Option.getD_some] at hx
        exact (List.mem_filter.mp hx).1
      · intro h
        simp only [spliceMember, hn, hs, lookupA_updateA_self, Option.getD_some]
        exact List.mem_filter.mpr
          ⟨h, by simp only [decide_eq_true_eq]; exact fun hh => hns hh.symm⟩
      · intro k hk
        simp only [spliceMember, hn, hs, lookupA_updateA_other _ _ _ _ hk]
      · intro m hm
        simp only [spliceMember, hn, hs, lookupA_updateA_other _ _ _ _ hm]
      · intro _
        refine ⟨?_, ?_, ?_⟩
        · simp only [spliceMember, hn, hs, lookupA_updateA_self, Option.map_some']
        · simp only [spliceMember, hn, hs, lookupA_updateA_self, Option.getD_some,
            List.mem_filter, decide_eq_true_eq]
          exact fun hc => hc.2 rfl
        · simp only [spliceMember, hn, hs, lookupA_updateA_self]
      · intro x snode hsn hx
        exact Option.noConfusion hsn
    | some s =>
      refine ⟨?_, ?_, ?_, ?_, ?_, ?_, ?_, ?_, ?_⟩
      · simp only [spliceMember, hn, hs]
      · intro m
        by_cases hm : m = n
        · subst hm
          simp only [spliceMember, hn, hs, lookupA_updateA_self, Option.isSome_some]
        · by_cases hm2 : m = seriesName
          · subst hm2
            simp only [spliceMember, hn, hs, lookupA_updateA_other _ _ _ _ hm,
              lookupA_updateA_self, Option.isSome_some]
          · simp only [spliceMember, hn, hs, lookupA_updateA_other _ _ _ _ hm,
              lookupA_updateA_other _ _ _ _ hm2]
      · intro m hm1 hm2
        simp only [spliceMember, hn, hs, lookupA_updateA_other _ _ _ _ hm1,
          lookupA_updateA_other _ _ _ _ hm2]
      · intro x hx
        simp only [spliceMember, hn, hs, lookupA_updateA_self, Option.getD_some] at hx
        exact (List.mem_filter.mp hx).1
      · intro h
        simp only [spliceMember, hn, hs, lookupA_updateA_self, Option.getD_some]
        exact List.mem_filter.mpr
          ⟨h, by simp only [decide_eq_true_eq]; exact fun hh => hns hh.symm⟩
      · intro k hk
        simp only [spliceMember, hn, hs, lookupA_updateA_other _ _ _ _ hk]
      · intro m hm
        simp only [spliceMember, hn, hs, lookupA_updateA_other _ _ _ _ hm]
      · intro _
        refine ⟨?_, ?_, ?_⟩
        · simp only [spliceMember, hn, hs, lookupA_updateA_self, Option.map_some']
        · simp only [spliceMember, hn, hs, lookupA_updateA_self, Option.getD_some,
            List.mem_filter, decide_eq_true_eq]
          exact fun hc => hc.2 rfl
        · simp only [spliceMember, hn, hs, lookupA_updateA_self]
      · intro x snode hsn hx
        injection hsn with hss
        subst hss
        simp only [spliceMember, hn, hs]
        rw [lookupA_updateA_other _ _ _ _ (show seriesName ≠ n from fun hh => hns hh.symm),
          lookupA_updateA_self]
        refine ⟨_, rfl, ?_⟩
        show x ∈ (if s.members.contains n then s.members else s.members ++ [n])
        split
        · exact hx
        · exact List.mem_append_left _ hx

/-- Effects of the whole splice loop over a member list none of whose
entries equals the series name: the override map is untouched, arena
presence is preserved, untouched arena entries are unchanged, the
container's child list only shrinks and never loses the series node,
other child lists and untouched `seriesNames` entries are unchanged,
every member present in the arena ends up repointed to the series,
out of the container's child list and recorded in `seriesNames`, and
every member of the series node stays a member. -/
theorem spliceFold_effects (mname seriesName : String) :
    ∀ (ms : List String) (s : SState), (∀ n ∈ ms, n ≠ seriesName) →
      (ms.foldl (spliceMember mname seriesName) s).smap = s.smap ∧
      (∀ m, (lookupA (ms.foldl (spliceMember mname seriesName) s).arena m).isSome =
        (lookupA s.arena m).isSome) ∧
      (∀ m, m ∉ ms → m ≠ seriesName →
        lookupA (ms.foldl (spliceMember mname seriesName) s).arena m = lookupA s.arena m) ∧
      (∀ x, x ∈ (lookupA (ms.foldl (spliceMember mname seriesName) s).childrenOf mname).getD []
        → x ∈ (lookupA s.childrenOf mname).getD []) ∧
      (seriesName ∈ (lookupA s.childrenOf mname).getD [] →
        seriesName ∈
          (lookupA (ms.foldl (spliceMember mname seriesName) s).childrenOf mname).getD []) ∧
      (∀ k, k ≠ mname →
        lookupA (ms.foldl (spliceMember mname seriesName) s).childrenOf k =
          lookupA s.childrenOf k) ∧
      (∀ m, m ∉ ms →
        lookupA (ms.foldl (spliceMember mname seriesName) s).seriesNames m =
          lookupA s.seriesNames m) ∧
      (∀ n ∈ ms, (lookupA s.arena n).isSome →
        (lookupA (ms.foldl (spliceMember mname seriesName) s).arena n).map
            (fun nd => nd.parentName) = some (some seriesName) ∧
        n ∉ (lookupA (ms.foldl (spliceMember mname seriesName) s).childrenOf mname).getD [] ∧
        lookupA (ms.foldl (spliceMember mname seriesName) s).seriesNames n = some seriesName) ∧
      (∀ x snode, lookupA s.arena seriesName = some snode → x ∈ snode.members →
        ∃ snode', lookupA (ms.foldl (spliceMember mname seriesName) s).arena seriesName =
            some snode' ∧ x ∈ snode'.members) := by
  intro ms
  induction ms with
  | nil =>
    intro s _
    exact ⟨rfl, fun m => rfl, fun m _ _ => rfl, fun x hx => hx, fun h => h, fun k _ => rfl,
      fun m _ => rfl, fun n hn => absurd hn (by simp),
      fun x snode hsn hx => ⟨snode, hsn, hx⟩⟩
  | cons m ms ih =>
    intro s hne
    have hmne : m ≠ seriesName := hne m (List.mem_cons_self m ms)
    have hrest : ∀ n ∈ ms, n ≠ seriesName := fun n hn => hne n (List.mem_cons_of_mem m hn)
    simp only [List.foldl_cons]
    obtain ⟨h1, h2, h3, h4, h5, h6, h7, h8, h9⟩ :=
      spliceMember_effects mname seriesName s m hmne
    obtain ⟨g1, g2, g3, g4, g5, g6, g7, g8, g9⟩ := ih (spliceMember mname seriesName s m) hrest
    refine ⟨g1.trans h1, fun q => (g2 q).trans (h2 q), ?_, fun x hx => h4 x (g4 x hx),
      fun hx => g5 (h5 hx), fun k hk => (g6 k hk).trans (h6 k hk), ?_, ?_, ?_⟩
    · intro q hq hqs
      have hq1 : q ≠ m := fun e => hq (e ▸ List.mem_cons_self m ms)
      have hq2 : q ∉ ms := fun e => hq (List.mem_cons_of_mem m e)
      exact (g3 q hq2 hqs).trans (h3 q hq1 hqs)
    · intro q hq
      have hq1 : q ≠ m := fun e => hq (e ▸ List.mem_cons_self m ms)
      have hq2 : q ∉ ms := fun e => hq (List.mem_cons_of_mem m e)
      exact (g7 q hq2).trans (h7 q hq1)
    · intro n hn hpres
      rcases List.mem_cons.mp hn with hn | hn
      · subst hn
        obtain ⟨p1, p2, p3⟩ := h8 hpres
        by_cases hnm : n ∈ ms
        · exact g8 n hnm (by rw [h2 n]; exact hpres)
        · exact ⟨(g3 n hnm hmne).symm ▸ p1, fun hc => p2 (g4 n hc), (g7 n hnm).symm ▸ p3⟩
      · exact g8 n hn (by rw [h2 n]; exact hpres)
    · intro x snode hsn hx
      obtain ⟨sn', hsn', hx'⟩ := h9 x snode hsn hx
      exact g9 x sn' hsn' hx'

/-- A two-member op cluster under the root, for exercising the series
size/override policy. -/
def c5State : SState :=
  { arena :=
      [("__root__", { ntype := NType.META }),
       ("foo_1", { ntype := NType.OP, op := "FooOp", parentName := some "__root__" }),
       ("foo_2", { ntype := NType.OP, op := "FooOp", parentName := some "__root__" })],
    childrenOf := [("__root__", ["foo_1", "foo_2"])] }

/-- The detected series record over `c5State`'s two members. -/
def c5Rec : SeriesRec :=
  { name := "foo[1-2]", pfx := "foo", sfx := "", parentPath := "", clusterId := 1,
    ids := [1, 2], members := ["foo_1", "foo_2"] }

/-- C5: the size/override policy of `groupSeries`'s per-series body
(hierarchy.ts 876-944), for a series none of whose members carries the
series' own name. (1) A series with fewer members than the minimum-size
threshold whose name is absent from the caller-supplied override map
gets marked `UNGROUP` in that map. (2) A series whose map entry already
is `UNGROUP` — or that gets so marked by (1) — is not spliced: the
container's child lists are unchanged, every node's parent pointer is
unchanged, and every member that is present and not yet owned is
stamped with `owningSeries` pointing at the series. (3) A series that
is not below-threshold-and-unmapped and whose map entry is not
`UNGROUP` is spliced: the series node joins the container's child list,
and every member present in the arena is repointed to the series node,
removed from the container's child list, and listed among the series
node's members. -/
theorem series_size_and_override_policy (mname : String) (threshold : Nat)
    (st : SState) (seriesName : String) (sn : SeriesRec)
    (hmem : ∀ n ∈ sn.members, n ≠ seriesName) :
    (sn.members.length < threshold → (lookupA st.smap sn.name).isNone →
      lookupA (processSeries mname threshold st seriesName sn).smap sn.name =
        some SeriesGroupingType.UNGROUP) ∧
    ((lookupA st.smap sn.name = some SeriesGroupingType.UNGROUP ∨
        (sn.members.length < threshold ∧ (lookupA st.smap sn.name).isNone)) →
      (processSeries mname threshold st seriesName sn).childrenOf = st.childrenOf ∧
      (∀ m, (lookupA (processSeries mname threshold st seriesName sn).arena m).map
          (fun nd => nd.parentName) = (lookupA st.arena m).map (fun nd => nd.parentName)) ∧
      (∀ n ∈ sn.members, ∀ child, lookupA st.arena n = some child →
        child.owningSeries = none →
        (lookupA (processSeries mname threshold st seriesName sn).arena n).map
          (fun nd => nd.owningSeries) = some (some seriesName))) ∧
    (lookupA st.smap sn.name ≠ some SeriesGroupingType.UNGROUP →
      ¬(sn.members.length < threshold ∧ (lookupA st.smap sn.name).isNone) →
      seriesName ∈
        (lookupA (processSeries mname threshold st seriesName sn).childrenOf mname).getD [] ∧
      (∀ n ∈ sn.members, (lookupA st.arena n).isSome →
        (lookupA (processSeries mname threshold st seriesName sn).arena n).map
            (fun nd => nd.parentName) = some (some seriesName) ∧
        n ∉ (lookupA (processSeries mname threshold st seriesName sn).childrenOf mname).getD []
          ∧
        (∃ snode, lookupA (processSeries mname threshold st seriesName sn).arena seriesName =
            some snode ∧ n ∈ snode.members))) := by
  have hstamp := stampFold_effects seriesName sn.members st
  have h1 := hstamp.1
  refine ⟨?_, ?_, ?_⟩
  · intro hlt hnone
    have hc : sn.members.length < threshold ∧
        (lookupA (sn.members.foldl (stampStep seriesName) st).smap sn.name).isNone :=
      ⟨hlt, by rw [h1]; exact hnone⟩
    have hguard : lookupA ({ sn.members.foldl (stampStep seriesName) st with
        smap := updateA (sn.members.foldl (stampStep seriesName) st).smap sn.name
          SeriesGroupingType.UNGROUP } : SState).smap sn.name =
        some SeriesGroupingType.UNGROUP := lookupA_updateA_self _ _ _
    simp only [processSeries]
    rw [if_pos hc, if_pos hguard]
    exact lookupA_updateA_self _ _ _
  · intro hB
    rcases hB with hu | ⟨hlt, hnone⟩
    · have hnc : ¬(sn.members.length < threshold ∧
          (lookupA (sn.members.foldl (stampStep seriesName) st).smap sn.name).isNone) := by
        intro hx
        rw [h1, hu] at hx
        exact absurd hx.2 (by simp)
      have hg : lookupA (sn.members.foldl (stampStep seriesName) st).smap sn.name =
          some SeriesGroupingType.UNGROUP := by rw [h1]; exact hu
      have he : processSeries mname threshold st seriesName sn =
          sn.members.foldl (stampStep seriesName) st := by
        simp only [processSeries]
        rw [if_neg hnc, if_pos hg]
      rw [he]
      exact ⟨hstamp.2.1, hstamp.2.2.2.1, hstamp.2.2.2.2.2.2⟩
    · have hc : sn.members.length < threshold ∧
          (lookupA (sn.members.foldl (stampStep seriesName) st).smap sn.name).isNone :=
        ⟨hlt, by rw [h1]; exact hnone⟩
      have hguard : lookupA ({ sn.members.foldl (stampStep seriesName) st with
          smap := updateA (sn.members.foldl (stampStep seriesName) st).smap sn.name
            SeriesGroupingType.UNGROUP } : SState).smap sn.name =
          some SeriesGroupingType.UNGROUP := lookupA_updateA_self _ _ _
      have he : processSeries mname threshold st seriesName sn =
          { sn.members.foldl (stampStep seriesName) st with
            smap := updateA (sn.members.foldl (stampStep seriesName) st).smap sn.name
              SeriesGroupingType.UNGROUP } := by
        simp only [processSeries]
        rw [if_pos hc, if_pos hguard]
      rw [he]
      exact ⟨hstamp.2.1, hstamp.2.2.2.1, hstamp.2.2.2.2.2.2⟩
  · intro hno hbig
    have hnc : ¬(sn.members.length < threshold ∧
        (lookupA (sn.members.foldl (stampStep seriesName) st).smap sn.name).isNone) := by
      intro hx
      rw [h1] at hx
      exact hbig hx
    have hgne : lookupA (sn.members.foldl (stampStep seriesName) st).smap sn.name ≠
        some SeriesGroupingType.UNGROUP := by rw [h1]; exact hno
    have he : processSeries mname threshold st seriesName sn =
        sn.members.foldl (spliceMember mname seriesName)
          { sn.members.foldl (stampStep seriesName) st with
            arena := updateA (sn.members.foldl (stampStep seriesName) st).arena seriesName
              (seriesRecToSNode sn),
            childrenOf := updateA (sn.members.foldl (stampStep seriesName) st).childrenOf
              mname
              (((lookupA (sn.members.foldl (stampStep seriesName) st).childrenOf mname).getD
                []) ++ [seriesName]) } := by
      simp only [processSeries]
      rw [if_neg hnc, if_neg hgne]
    rw [he]
    obtain ⟨f1, f2, f3, f4, f5, f6, f7, f8, f9⟩ :=
      spliceFold_effects mname seriesName sn.members
        { sn.members.foldl (stampStep seriesName) st with
          arena := updateA (sn.members.foldl (stampStep seriesName) st).arena seriesName
            (seriesRecToSNode sn),
          childrenOf := updateA (sn.members.foldl (stampStep seriesName) st).childrenOf mname
            (((lookupA (sn.members.foldl (stampStep seriesName) st).childrenOf mname).getD [])
              ++ [seriesName]) } hmem
    constructor
    · apply f5
      show seriesName ∈
        (lookupA (updateA (sn.members.foldl (stampStep seriesName) st).childrenOf mname
          (((lookupA (sn.members.foldl (stampStep seriesName) st).childrenOf mname).getD [])
            ++ [seriesName])) mname).getD []
      rw [lookupA_updateA_self]
      simp
    · intro n hn hpres
      have hpres3 : (lookupA (updateA (sn.members.foldl (stampStep seriesName) st).arena
          seriesName (seriesRecToSNode sn)) n).isSome := by
        rw [lookupA_updateA_other _ _ _ _ (hmem n hn), hstamp.2.2.2.2.1 n]
        exact hpres
      obtain ⟨p1, p2, _⟩ := f8 n hn hpres3
      refine ⟨p1, p2, ?_⟩
      have hsn3 : lookupA (updateA (sn.members.foldl (stampStep seriesName) st).arena
          seriesName (seriesRecToSNode sn)) seriesName = some (seriesRecToSNode sn) :=
        lookupA_updateA_self _ _ _
      exact f9 n (seriesRecToSNode sn) hsn3 hn

/-- Witness for C5: on the concrete two-member cluster, a threshold of
3 marks the series `UNGROUP`, while a threshold of 2 accepts it and
adds it to the root's child list. -/
theorem series_size_and_override_policy_witness :
    lookupA (processSeries "__root__" 3 c5State "foo[1-2]" c5Rec).smap "foo[1-2]" =
        some SeriesGroupingType.UNGROUP ∧
      "foo[1-2]" ∈
        (lookupA (processSeries "__root__" 2 c5State "foo[1-2]" c5Rec).childrenOf
          "__root__").getD [] :=
  ⟨(series_size_and_override_policy "__root__" 3 c5State "foo[1-2]" c5Rec (by decide)).1
      (by decide) (by decide),
   ((series_size_and_override_policy "__root__" 2 c5State "foo[1-2]" c5Rec (by decide)).2.2
      (by decide) (by decide)).1⟩

end TfHierarchy
